import Mathlib

/-!
# vyatta-dataplane: next-hop helpers, crypto session parameters, MAC limit table

A shallow embedding of three source files of the dataplane

* `src/nh_common.h`            (namespace `NhCommon`)
* `src/crypto/crypto_rte_pmd.c` (namespace `CryptoRtePmd`)
* `src/mac_limit.c`            (namespace `MacLimit`)

Pointers are natural numbers (`0` is `NULL`), machine integers are natural
numbers reduced modulo `2^w` where the C code narrows them, and `int` results
are integers.
-/

/-! ## Values of `errno.h` (Linux) -/

/-- The value of `ENOENT`. -/
def ENOENT : Int := 2

/-- The value of `ENOMEM`. -/
def ENOMEM : Int := 12

/-- The value of `EINVAL`. -/
def EINVAL : Int := 22

namespace NhCommon

/-! ## `nh_common.h` -/

/-- The C `struct next_hop`.  The union `u` of the two pointers `ifp` and
`lle` is one pointer-sized word; `u.ifp` and `u.lle` both read that word.
`flags` is the `uint32_t` routing flags.  The out-labels and the gateway union
are carried as uninterpreted words. -/
structure next_hop where
  u : Nat
  flags : Nat
  outlabels : Nat
  gateway : Nat
deriving DecidableEq, Repr

/-- The C `nh_is_neigh_present`: `flags & RTF_NEIGH_PRESENT` converted to `bool`.
The flag constant comes from `route_flags.h` and is a parameter. -/
def nh_is_neigh_present (RTF_NEIGH_PRESENT : Nat) (nh : next_hop) : Bool :=
  nh.flags &&& RTF_NEIGH_PRESENT != 0

/-- The C `nh_is_neigh_created`: `flags & RTF_NEIGH_CREATED` converted to `bool`. -/
def nh_is_neigh_created (RTF_NEIGH_CREATED : Nat) (nh : next_hop) : Bool :=
  nh.flags &&& RTF_NEIGH_CREATED != 0

/-- The C `nh_get_lle`:
`if (flags & (RTF_NEIGH_CREATED | RTF_NEIGH_PRESENT)) return rcu_dereference(u.lle); return NULL;`
The two flag constants come from `route_flags.h` and are parameters. -/
def nh_get_lle (RTF_NEIGH_CREATED RTF_NEIGH_PRESENT : Nat) (nh : next_hop) : Nat :=
  if nh.flags &&& (RTF_NEIGH_CREATED ||| RTF_NEIGH_PRESENT) ≠ 0 then nh.u else 0

/-- Modelled from the spec: `nexthop_mp_select(next, size, hash)` is only declared
in `nh_common.h`; its body is missing.  Section 4.4 of the specification:
`select` picks `members[flow_hash mod sibling_count]`, and when
`sibling_count == 1` it returns the sole member without computing the modulus.
The result is the selected element of the array (`none` when the index is
outside the array, which includes `size = 0`). -/
def nexthop_mp_select (next : List next_hop) (size : Nat) (hash : Nat) : Option next_hop :=
  if size = 1 then next[0]?
  else if size = 0 then none
  else next[hash % size]?

end NhCommon

namespace CryptoRtePmd

/-! ## `crypto/crypto_rte_pmd.c` -/

/-- The number of bits per byte, `BITS_PER_BYTE`. -/
def BITS_PER_BYTE : Nat := 8

/-- The values of DPDK's `enum rte_crypto_cipher_algorithm` that the file names;
every other value of the enum is `other`. -/
inductive rte_crypto_cipher_algorithm where
  | RTE_CRYPTO_CIPHER_NULL
  | RTE_CRYPTO_CIPHER_3DES_CBC
  | RTE_CRYPTO_CIPHER_AES_CBC
  | RTE_CRYPTO_CIPHER_LIST_END
  | other (code : Nat)
deriving DecidableEq, Repr

/-- The values of DPDK's `enum rte_crypto_auth_algorithm` that the file names;
every other value of the enum is `other`. -/
inductive rte_crypto_auth_algorithm where
  | RTE_CRYPTO_AUTH_NULL
  | RTE_CRYPTO_AUTH_SHA1
  | RTE_CRYPTO_AUTH_SHA256_HMAC
  | RTE_CRYPTO_AUTH_SHA384_HMAC
  | RTE_CRYPTO_AUTH_SHA512_HMAC
  | RTE_CRYPTO_AUTH_MD5
  | RTE_CRYPTO_AUTH_LIST_END
  | other (code : Nat)
deriving DecidableEq, Repr

/-- The value of DPDK's `enum rte_crypto_aead_algorithm` that the file names;
every other value of the enum is `other`. -/
inductive rte_crypto_aead_algorithm where
  | RTE_CRYPTO_AEAD_AES_GCM
  | other (code : Nat)
deriving DecidableEq, Repr

open rte_crypto_cipher_algorithm rte_crypto_auth_algorithm rte_crypto_aead_algorithm

/-- The constants of `crypto_defs.h` and `crypto_internal.h` that the file uses
and that are not part of the sources at hand.  `KEY_ARRAY_SIZE` is
`ARRAY_SIZE(ctx->key)`. -/
structure Consts where
  AES_GCM_NONCE_LENGTH : Nat
  AES_GCM_IV_LENGTH : Nat
  IPSEC_AES_CBC_IV_SIZE : Nat
  IPSEC_3DES_IV_SIZE : Nat
  CRYPTO_MAX_KEY_LENGTH : Nat
  KEY_ARRAY_SIZE : Nat
deriving DecidableEq, Repr

/-- The fields of `struct crypto_session` that the file writes.  Byte buffers
are lists of bytes; integer fields hold the value assigned to them. -/
structure crypto_session where
  cipher_algo : rte_crypto_cipher_algorithm
  aead_algo : rte_crypto_aead_algorithm
  auth_algo : rte_crypto_auth_algorithm
  cipher_name : String
  md_name : String
  nonce_len : Nat
  key_len : Nat
  iv_len : Nat
  key : List Nat
  nonce : List Nat
  auth_alg_key : List Nat
  auth_alg_key_len : Nat
  digest_len : Nat
deriving DecidableEq, Repr

/-- Linux `struct xfrm_algo`: the name, the key length in bits (`unsigned int`)
and the key bytes. -/
structure xfrm_algo where
  alg_name : String
  alg_key_len : Nat
  alg_key : List Nat
deriving DecidableEq, Repr

/-- Linux `struct xfrm_algo_auth`. -/
structure xfrm_algo_auth where
  alg_name : String
  alg_key_len : Nat
  alg_trunc_len : Nat
  alg_key : List Nat
deriving DecidableEq, Repr

/-- One row of `struct cipher_algo_table`. -/
structure cipher_algo_table where
  name : String
  cipher_algo : rte_crypto_cipher_algorithm
  iv_len : Nat
deriving DecidableEq, Repr

/-- The table `cipher_algorithms[]`. -/
def cipher_algorithms (K : Consts) : List cipher_algo_table :=
  [ ⟨"cbc(aes)", RTE_CRYPTO_CIPHER_AES_CBC, K.IPSEC_AES_CBC_IV_SIZE⟩,
    ⟨"cbc(des3_ede)", RTE_CRYPTO_CIPHER_3DES_CBC, K.IPSEC_3DES_IV_SIZE⟩,
    ⟨"eNULL", RTE_CRYPTO_CIPHER_NULL, 0⟩,
    ⟨"ecb(cipher_null)", RTE_CRYPTO_CIPHER_NULL, 0⟩ ]

/-- One row of `struct md_algo_table`. -/
structure md_algo_table where
  name : String
  auth_algo : rte_crypto_auth_algorithm
deriving DecidableEq, Repr

/-- The table `md_algorithms[]`. -/
def md_algorithms : List md_algo_table :=
  [ ⟨"hmac(sha1)", RTE_CRYPTO_AUTH_SHA1⟩,
    ⟨"hmac(sha256)", RTE_CRYPTO_AUTH_SHA256_HMAC⟩,
    ⟨"hmac(sha384)", RTE_CRYPTO_AUTH_SHA384_HMAC⟩,
    ⟨"hmac(sha512)", RTE_CRYPTO_AUTH_SHA512_HMAC⟩,
    ⟨"hmac(md5)", RTE_CRYPTO_AUTH_MD5⟩,
    ⟨"rfc4106(gcm(aes))", RTE_CRYPTO_AUTH_NULL⟩,
    ⟨"aNULL", RTE_CRYPTO_AUTH_NULL⟩ ]

/-- The C `memcpy(dst, src, n)` on byte buffers: the first `n` bytes of `dst`
are replaced by the first `n` bytes of `src`. -/
def memcpy (dst src : List Nat) (n : Nat) : List Nat :=
  src.take n ++ dst.drop n

/-- Conversion of an `unsigned int` expression to `uint16_t`. -/
def to_u16 (x : Int) : Nat := (x % 65536).toNat

/-- The C `crypto_rte_setup_aes_gcm_cipher`.  The result is the `int` return
value and the session afterwards. -/
def crypto_rte_setup_aes_gcm_cipher (K : Consts) (ctx : crypto_session)
    (algo_crypt : xfrm_algo) : Int × crypto_session :=
  let key_len0 : Nat := to_u16 (algo_crypt.alg_key_len / BITS_PER_BYTE : Nat)
  let key_len : Nat := to_u16 ((key_len0 : Int) - (K.AES_GCM_NONCE_LENGTH : Int))
  let ctx := { ctx with aead_algo := RTE_CRYPTO_AEAD_AES_GCM }
  let ctx := { ctx with nonce_len := K.AES_GCM_NONCE_LENGTH }
  let ctx := { ctx with key_len := key_len }
  let ctx := { ctx with iv_len := K.AES_GCM_IV_LENGTH }
  if key_len < 4 then
    (-EINVAL, ctx)
  else if key_len ≠ 16 ∧ key_len ≠ 32 then
    (-EINVAL, { ctx with cipher_name := "gcm(aes) unknown" })
  else if key_len > K.KEY_ARRAY_SIZE then
    (-EINVAL, ctx)
  else
    let ctx := { ctx with key := memcpy ctx.key algo_crypt.alg_key ctx.key_len }
    let ctx := { ctx with
      nonce := memcpy ctx.nonce (algo_crypt.alg_key.drop ctx.key_len) ctx.nonce_len }
    (0, ctx)

/-- The C `crypto_rte_set_cipher`. -/
def crypto_rte_set_cipher (K : Consts) (ctx : crypto_session)
    (algo_crypt : xfrm_algo) : Int × crypto_session :=
  let algo_name := algo_crypt.alg_name
  let key_len : Nat := to_u16 (algo_crypt.alg_key_len / BITS_PER_BYTE : Nat)
  let ctx := { ctx with cipher_algo := RTE_CRYPTO_CIPHER_LIST_END }
  if "rfc4106(gcm(aes))" = algo_name then
    let r := crypto_rte_setup_aes_gcm_cipher K ctx algo_crypt
    if r.1 ≠ 0 then r else (0, r.2)
  else
    let ctx :=
      match (cipher_algorithms K).find? (fun row => row.name = algo_name) with
      | some row => { ctx with cipher_algo := row.cipher_algo, iv_len := row.iv_len }
      | none => ctx
    if ctx.cipher_algo = RTE_CRYPTO_CIPHER_LIST_END then
      (-EINVAL, ctx)
    else if (key_len = 0 ∧ ctx.cipher_algo ≠ RTE_CRYPTO_CIPHER_NULL) ∨
        key_len > K.CRYPTO_MAX_KEY_LENGTH then
      (-EINVAL, ctx)
    else
      let ctx := { ctx with key_len := key_len }
      (0, { ctx with key := memcpy ctx.key algo_crypt.alg_key key_len })

/-- The C `crypto_rte_set_auth`. -/
def crypto_rte_set_auth (ctx : crypto_session)
    (algo_auth : xfrm_algo_auth) : Int × crypto_session :=
  let key_len : Nat := to_u16 (algo_auth.alg_key_len / BITS_PER_BYTE : Nat)
  let algo_name := algo_auth.alg_name
  let ctx := { ctx with auth_algo := RTE_CRYPTO_AUTH_LIST_END }
  let ctx :=
    match md_algorithms.find? (fun row => row.name = algo_name) with
    | some row => { ctx with md_name := row.name, auth_algo := row.auth_algo }
    | none => ctx
  if ctx.auth_algo = RTE_CRYPTO_AUTH_LIST_END then
    (-EINVAL, ctx)
  else if key_len = 0 ∧ ctx.auth_algo ≠ RTE_CRYPTO_AUTH_NULL then
    (-EINVAL, ctx)
  else
    let ctx := { ctx with auth_alg_key_len := key_len }
    let ctx := { ctx with auth_alg_key := memcpy ctx.auth_alg_key algo_auth.alg_key key_len }
    (0, { ctx with digest_len := algo_auth.alg_trunc_len / BITS_PER_BYTE })

/-- The C `crypto_rte_set_session_parameters`. -/
def crypto_rte_set_session_parameters (K : Consts) (ctx : crypto_session)
    (algo_crypt : xfrm_algo) (algo_auth : xfrm_algo_auth) : Int × crypto_session :=
  let r := crypto_rte_set_cipher K ctx algo_crypt
  if r.1 ≠ 0 then r
  else crypto_rte_set_auth r.2 algo_auth

end CryptoRtePmd

namespace MacLimit

/-! ## `mac_limit.c`

The module state is the two file-scope pointers and the heap objects they
reach.  Profiles and entries live at numbered addresses handed out by `calloc`
in increasing order; the embedded `struct cds_list_head` objects are addressed
by `Node` and their two pointers are kept in the link memory `heads`.  The
list primitives are those of liburcu (`urcu/list.h`, `urcu/rculist.h`),
statement by statement.  The lock-free hash table of liburcu is the list of
the profiles linked into it: a node is stored under the hash of its name and
looked up under the hash of the name asked for, so a lookup finds a node
exactly when `mac_limit_profile_match_fn` accepts it. -/

/-- The address of a `struct cds_list_head`: `NULL`, the allocated head
`*mac_limit_list`, the member `mlp_list` of a profile, or the member `mle_list`
or `mle_profile_list` of an entry. -/
inductive Node where
  | null
  | mac_limit_list
  | mlp_list (profile : Nat)
  | mle_list (entry : Nat)
  | mle_profile_list (entry : Nat)
deriving DecidableEq, Repr

/-- The liburcu `struct cds_list_head`. -/
structure cds_list_head where
  next : Node
  prev : Node
deriving DecidableEq, Repr

/-- The C `struct mac_limit_profile` without its embedded list head (kept in
the link memory under `Node.mlp_list`), hash node and RCU head. -/
structure mac_limit_profile where
  mlp_name : String
  mlp_limit : Nat
deriving DecidableEq, Repr

/-- The C `struct mac_limit_entry` without its two embedded list heads (kept in
the link memory under `Node.mle_list` and `Node.mle_profile_list`) and RCU
head.  `mle_ifp` is the interface pointer, `mle_profile` the profile pointer
(`none` is `NULL`). -/
structure mac_limit_entry where
  mle_ifp : Nat
  mle_vlan : Nat
  mle_profile : Option Nat
deriving DecidableEq, Repr

/-- The state of the module.  `mac_limit_profile_tbl` is `none` while the
pointer is `NULL`, otherwise the profiles linked into the hash table;
`mac_limit_list` tells whether the pointer of that name is non-`NULL` (its head
is then `Node.mac_limit_list`).  `nprofiles` and `nentries` count the objects
allocated so far (the next `calloc` returns that address), and the two
`rcu_free` lists are the objects handed to `call_rcu` for freeing. -/
structure State where
  mac_limit_profile_tbl : Option (List Nat)
  mac_limit_list : Bool
  heads : Node → cds_list_head
  profiles : Nat → mac_limit_profile
  entries : Nat → mac_limit_entry
  nprofiles : Nat
  nentries : Nat
  rcu_free_profiles : List Nat
  rcu_free_entries : List Nat

/-- The state at start-up: both pointers `NULL`, nothing allocated. -/
def State.init : State where
  mac_limit_profile_tbl := none
  mac_limit_list := false
  heads := fun _ => ⟨Node.null, Node.null⟩
  profiles := fun _ => ⟨"", 0⟩
  entries := fun _ => ⟨0, 0, none⟩
  nprofiles := 0
  nentries := 0
  rcu_free_profiles := []
  rcu_free_entries := []

/-- Which of the allocations of one request succeed: `cds_lfht_new`, the
`calloc` of a profile, the `strdup` of its name, the `calloc` of the list head
and the `calloc` of an entry. -/
structure Alloc where
  lfht_new : Bool
  calloc_profile : Bool
  strdup_name : Bool
  calloc_list : Bool
  calloc_entry : Bool
deriving DecidableEq, Repr

/-- Every allocation succeeds. -/
def Alloc.ok : Alloc := ⟨true, true, true, true, true⟩

/-- The protobuf enum `MacLimitConfig.Action`. -/
inductive Action where
  | SET
  | DELETE
deriving DecidableEq, Repr

/-- The protobuf message `MacLimitProfileConfig`; `profile` is `none` when the
string pointer is `NULL`. -/
structure MacLimitProfileConfig where
  action : Action
  profile : Option String
  limit : Nat
deriving DecidableEq, Repr

/-- The protobuf message `MacLimitIfVLANConfig`; `profile` is `none` when the
string pointer is `NULL`. -/
structure MacLimitIfVLANConfig where
  action : Action
  ifname : String
  vlan : Nat
  profile : Option String
deriving DecidableEq, Repr

/-- The unpacked protobuf message `MacLimitConfig` by `mtype_case`. -/
inductive MacLimitConfig where
  | profile (cfg : MacLimitProfileConfig)
  | ifvlan (cfg : MacLimitIfVLANConfig)
  | unhandled
deriving DecidableEq, Repr

/-! ### liburcu list primitives -/

/-- The assignment `n->next = v`. -/
def set_next (H : Node → cds_list_head) (n v : Node) : Node → cds_list_head :=
  Function.update H n { H n with next := v }

/-- The assignment `n->prev = v`. -/
def set_prev (H : Node → cds_list_head) (n v : Node) : Node → cds_list_head :=
  Function.update H n { H n with prev := v }

/-- The liburcu `CDS_INIT_LIST_HEAD(ptr)`: `ptr->next = ptr->prev = ptr`. -/
def CDS_INIT_LIST_HEAD (H : Node → cds_list_head) (ptr : Node) : Node → cds_list_head :=
  Function.update H ptr ⟨ptr, ptr⟩

/-- The liburcu `cds_list_add_tail(newp, head)`:
`head->prev->next = newp; newp->next = head; newp->prev = head->prev; head->prev = newp;` -/
def cds_list_add_tail (H : Node → cds_list_head) (newp head : Node) : Node → cds_list_head :=
  let H := set_next H (H head).prev newp
  let H := set_next H newp head
  let H := set_prev H newp (H head).prev
  set_prev H head newp

/-- The liburcu `cds_list_add_rcu(newp, head)`:
`newp->next = head->next; newp->prev = head; head->next->prev = newp; head->next = newp;` -/
def cds_list_add_rcu (H : Node → cds_list_head) (newp head : Node) : Node → cds_list_head :=
  let H := set_next H newp (H head).next
  let H := set_prev H newp head
  let H := set_prev H (H head).next newp
  set_next H head newp

/-- The liburcu `cds_list_del(elem)`, that is `__cds_list_del(elem->prev, elem->next)`:
`next->prev = prev; prev->next = next;` -/
def cds_list_del (H : Node → cds_list_head) (elem : Node) : Node → cds_list_head :=
  let prev := (H elem).prev
  let next := (H elem).next
  let H := set_prev H next prev
  set_next H prev next

/-- The liburcu `cds_list_empty(head)`: `head == head->next`. -/
def cds_list_empty (H : Node → cds_list_head) (head : Node) : Bool :=
  decide (head = (H head).next)

/-! ### Profiles -/

/-- The C `mac_limit_profile_match_fn`: `strcmp(profile_name, profile->mlp_name) == 0`. -/
def mac_limit_profile_match_fn (s : State) (profile_name : String) (profile : Nat) : Bool :=
  decide (profile_name = (s.profiles profile).mlp_name)

/-- The C `mac_limit_find_profile`: `NULL` without a table, otherwise the node
found by `cds_lfht_lookup` with the match function. -/
def mac_limit_find_profile (s : State) (name : String) : Option Nat :=
  match s.mac_limit_profile_tbl with
  | none => none
  | some tbl => tbl.find? (mac_limit_profile_match_fn s name)

/-- The C `mac_limit_add_profile`.  The table is created first when the pointer
is `NULL`; the profile is allocated, named, and added unless a node with that
name is in the table already, in which case the new object is freed again and
the node found is returned; a new profile gets `CDS_INIT_LIST_HEAD`. -/
def mac_limit_add_profile (A : Alloc) (s : State) (name : String) : Option Nat × State :=
  if s.mac_limit_profile_tbl.isNone ∧ A.lfht_new = false then
    (none, s)
  else
    let tbl := s.mac_limit_profile_tbl.getD []
    let s := { s with mac_limit_profile_tbl := some tbl }
    if A.calloc_profile = false then
      (none, s)
    else if A.strdup_name = false then
      (none, s)
    else
      let profile := s.nprofiles
      match tbl.find? (mac_limit_profile_match_fn s name) with
      | some ret_node => (some ret_node, s)
      | none =>
        (some profile,
          { s with
            mac_limit_profile_tbl := some (tbl ++ [profile])
            nprofiles := s.nprofiles + 1
            profiles := Function.update s.profiles profile ⟨name, 0⟩
            heads := CDS_INIT_LIST_HEAD s.heads (Node.mlp_list profile) })

/-- The C `mac_limit_delete_profile`: `cds_lfht_del` of the node, then
`call_rcu` with `mac_limit_free_profile`. -/
def mac_limit_delete_profile (s : State) (profile : Nat) : State :=
  { s with
    mac_limit_profile_tbl := s.mac_limit_profile_tbl.map (fun tbl => tbl.filter (· ≠ profile))
    rcu_free_profiles := profile :: s.rcu_free_profiles }

/-- The C `mac_limit_profile_set_limit`: `profile->mlp_limit = limit`. -/
def mac_limit_profile_set_limit (s : State) (profile : Nat) (limit : Nat) : State :=
  { s with profiles := Function.update s.profiles profile { s.profiles profile with mlp_limit := limit } }

/-- The C `mac_limit_set_profile`: the `int` result and the state afterwards. -/
def mac_limit_set_profile (A : Alloc) (s : State) (cfg : MacLimitProfileConfig) : Int × State :=
  let set := decide (cfg.action = Action.SET)
  let finish : State → Nat → Int × State := fun s profile =>
    let s := if !set then mac_limit_profile_set_limit s profile 0
             else mac_limit_profile_set_limit s profile cfg.limit
    if !set then
      if !cds_list_empty s.heads (Node.mlp_list profile) then
        (0, s)
      else
        (0, mac_limit_delete_profile s profile)
    else
      (0, s)
  match cfg.profile with
  | none => (0, s)
  | some profile_name =>
    match mac_limit_find_profile s profile_name with
    | some profile => finish s profile
    | none =>
      if set then
        match mac_limit_add_profile A s profile_name with
        | (some profile, s) => finish s profile
        | (none, s) => (-ENOMEM, s)
      else
        (-ENOENT, s)

/-! ### Entries -/

/-- The loop of `cds_list_for_each_entry_safe` in `mle_find_entry`, started at
list position `pos`: `some none` is the result `NULL`, `some (some e)` the entry
found, and `none` means that the walk did not finish within `fuel` steps or
left the entries of the list. -/
def mle_find_loop (s : State) (ifp vlan : Nat) : Nat → Node → Option (Option Nat)
  | 0, _ => none
  | fuel + 1, pos =>
    if pos = Node.mac_limit_list then some none
    else
      match pos with
      | Node.mle_list entry =>
        if (s.entries entry).mle_ifp = ifp ∧ (s.entries entry).mle_vlan = vlan then
          some (some entry)
        else mle_find_loop s ifp vlan fuel (s.heads pos).next
      | _ => none

/-- The C `mle_find_entry`: `NULL` without a list, otherwise the first entry of
the list with the given interface and VLAN. -/
def mle_find_entry (fuel : Nat) (s : State) (ifp vlan : Nat) : Option (Option Nat) :=
  if s.mac_limit_list = false then some none
  else mle_find_loop s ifp vlan fuel (s.heads Node.mac_limit_list).next

/-- The C `mle_add_entry`: allocates the list head when the pointer is `NULL`,
allocates the zeroed entry, sets its VLAN and interface and links it at the
tail of the list. -/
def mle_add_entry (A : Alloc) (s : State) (ifp vlan : Nat) : Option Nat × State :=
  if s.mac_limit_list = false ∧ A.calloc_list = false then
    (none, s)
  else
    let s :=
      if s.mac_limit_list = false then
        { s with
          mac_limit_list := true
          heads := CDS_INIT_LIST_HEAD s.heads Node.mac_limit_list }
      else s
    if A.calloc_entry = false then
      (none, s)
    else
      let entry := s.nentries
      let H := Function.update s.heads (Node.mle_list entry) ⟨Node.null, Node.null⟩
      let H := Function.update H (Node.mle_profile_list entry) ⟨Node.null, Node.null⟩
      (some entry,
        { s with
          nentries := s.nentries + 1
          entries := Function.update s.entries entry ⟨ifp, vlan, none⟩
          heads := cds_list_add_tail H (Node.mle_list entry) Node.mac_limit_list })

/-- The C `mle_delete_entry` for a non-`NULL` entry: unlinks both list members
and hands the entry to `call_rcu`. -/
def mle_delete_entry (s : State) (entry : Nat) : State :=
  let H := cds_list_del s.heads (Node.mle_list entry)
  let H := cds_list_del H (Node.mle_profile_list entry)
  { s with heads := H, rcu_free_entries := entry :: s.rcu_free_entries }

/-- The C `mac_limit_set_intf_cfg`.  `dp_ifnet_byifname` is the interface lookup
of the dataplane.  The result is `none` when `mle_find_entry` does not finish
within `fuel` steps, or when a `SET` request carries no profile name while the
profile table exists (the C code then calls `strlen(NULL)`); without a table
`mac_limit_find_profile` returns `NULL` before it looks at the name. -/
def mac_limit_set_intf_cfg (dp_ifnet_byifname : String → Option Nat) (A : Alloc) (fuel : Nat)
    (s : State) (cfg : MacLimitIfVLANConfig) : Option (Int × State) :=
  let set := decide (cfg.action = Action.SET)
  let vlan := cfg.vlan % 65536
  match dp_ifnet_byifname cfg.ifname with
  | none => some (-1, s)
  | some ifp =>
    match mle_find_entry fuel s ifp vlan with
    | none => none
    | some entry =>
      if set then
        match cfg.profile with
        | none => if s.mac_limit_profile_tbl = none then some (-1, s) else none
        | some pname =>
          match mac_limit_find_profile s pname with
          | none => some (-1, s)
          | some profile =>
            let added : Option Nat × State :=
              match entry with
              | some entry =>
                if (s.entries entry).mle_profile ≠ some profile then
                  (some entry,
                    { s with
                      heads := cds_list_del s.heads (Node.mle_profile_list entry)
                      entries := Function.update s.entries entry
                        { s.entries entry with mle_profile := none } })
                else (some entry, s)
              | none => mle_add_entry A s ifp vlan
            match added with
            | (none, s) => some (-1, s)
            | (some entry, s) =>
              some (0,
                { s with
                  entries := Function.update s.entries entry
                    { s.entries entry with mle_profile := some profile }
                  heads := cds_list_add_rcu s.heads (Node.mle_profile_list entry)
                    (Node.mlp_list profile) })
      else
        match entry with
        | none => some (0, s)
        | some entry => some (0, mle_delete_entry s entry)

/-- The C `cmd_mac_limit_cfg`: `-1` when the message cannot be unpacked
(`none`), otherwise the result of the handler of the message type, and `0` for
a message type without a handler. -/
def cmd_mac_limit_cfg (dp_ifnet_byifname : String → Option Nat) (A : Alloc) (fuel : Nat)
    (s : State) (mlmsg : Option MacLimitConfig) : Option (Int × State) :=
  match mlmsg with
  | none => some (-1, s)
  | some (MacLimitConfig.profile cfg) => some (mac_limit_set_profile A s cfg)
  | some (MacLimitConfig.ifvlan cfg) => mac_limit_set_intf_cfg dp_ifnet_byifname A fuel s cfg
  | some MacLimitConfig.unhandled => some (0, s)

/-! ### Invariants of the module state -/

/-- The invariant of the profile table: every profile linked into it has been
allocated, and no two of them carry the same name. -/
def ProfileTableInv (s : State) : Prop :=
  (∀ p ∈ s.mac_limit_profile_tbl.getD [], p < s.nprofiles) ∧
  ((s.mac_limit_profile_tbl.getD []).map (fun p => (s.profiles p).mlp_name)).Nodup

instance (s : State) : Decidable (ProfileTableInv s) := by
  unfold ProfileTableInv
  infer_instance

/-- Following the pointer map `f` from `a` leads through the nodes `xs`, in this
order, to `b`. -/
def Path (f : Node → Node) : Node → List Node → Node → Prop
  | a, [], b => f a = b
  | a, x :: xs, b => f a = x ∧ Path f x xs b

instance Path.instDecidable (f : Node → Node) :
    (a : Node) → (xs : List Node) → (b : Node) → Decidable (Path f a xs b)
  | a, [], b => by unfold Path; infer_instance
  | a, x :: xs, b => by
    unfold Path
    exact @instDecidableAnd _ _ _ (Path.instDecidable f x xs b)

/-- The circular doubly linked list at `head` holds exactly the nodes `xs`, in
this order: `next` leads from the head through `xs` back to the head, `prev`
leads through them in the opposite order, and the nodes are distinct and
different from the head. -/
def IsList (H : Node → cds_list_head) (head : Node) (xs : List Node) : Prop :=
  Path (fun n => (H n).next) head xs head ∧
  Path (fun n => (H n).prev) head xs.reverse head ∧
  head ∉ xs ∧ xs.Nodup

instance (H : Node → cds_list_head) (head : Node) (xs : List Node) :
    Decidable (IsList H head xs) := by
  unfold IsList
  infer_instance

/-- The entry list of the module holds exactly the entries `es`, in this order:
either the pointer `mac_limit_list` is `NULL` and there is no entry, or the
`mle_list` members of `es` form the circular list at the head. -/
def EntryList (s : State) (es : List Nat) : Prop :=
  if s.mac_limit_list = true then
    IsList s.heads Node.mac_limit_list (es.map Node.mle_list)
  else es = []

instance (s : State) (es : List Nat) : Decidable (EntryList s es) := by
  unfold EntryList
  infer_instance

/-- The module state `s'` is the state `s`, except that a `NULL` table pointer
may have been replaced by an empty table, or a `NULL` list pointer by an empty
list head. -/
def SameContents (s s' : State) : Prop :=
  s' = s ∨
  (s.mac_limit_profile_tbl = none ∧ s' = { s with mac_limit_profile_tbl := some [] }) ∨
  (s.mac_limit_list = false ∧
    s' = { s with
      mac_limit_list := true
      heads := CDS_INIT_LIST_HEAD s.heads Node.mac_limit_list })

/-- The requests `msgs` handled in order by `cmd_mac_limit_cfg`, every
allocation succeeding: the results in order and the final state, or `none` when
one of the requests has no result. -/
def run_requests (dp_ifnet_byifname : String → Option Nat) (fuel : Nat) :
    State → List MacLimitConfig → Option (List Int × State)
  | s, [] => some ([], s)
  | s, m :: ms =>
    match cmd_mac_limit_cfg dp_ifnet_byifname Alloc.ok fuel s (some m) with
    | none => none
    | some (r, s) =>
      match run_requests dp_ifnet_byifname fuel s ms with
      | none => none
      | some (rs, s) => some (r :: rs, s)

/-- The invariant that ties entries to profiles.  `es` are the entries of the
entry list in order and `att p` the entries of the attachment list of profile
`p` in order: the profile table is well formed; the entry list is a well-formed
list of distinct allocated entries with distinct (interface, VLAN) pairs; the
attachment list of every profile of the table is a well-formed list; an entry
is on the attachment list of `p` only if it is on the entry list and its
`mle_profile` is `p`; and every entry of the entry list is on the attachment
list of its profile, which is in the table. -/
def AttachInv (s : State) (es : List Nat) (att : Nat → List Nat) : Prop :=
  ProfileTableInv s ∧
  EntryList s es ∧ es.Nodup ∧ (∀ e ∈ es, e < s.nentries) ∧
  (∀ e ∈ es, ∀ e' ∈ es, (s.entries e).mle_ifp = (s.entries e').mle_ifp →
    (s.entries e).mle_vlan = (s.entries e').mle_vlan → e = e') ∧
  (∀ p ∈ s.mac_limit_profile_tbl.getD [],
    IsList s.heads (Node.mlp_list p) ((att p).map Node.mle_profile_list)) ∧
  (∀ p ∈ s.mac_limit_profile_tbl.getD [], ∀ e ∈ att p,
    e ∈ es ∧ (s.entries e).mle_profile = some p) ∧
  (∀ e ∈ es, ∃ p ∈ s.mac_limit_profile_tbl.getD [],
    (s.entries e).mle_profile = some p ∧ e ∈ att p)

/-- The invariant `AttachInv` for a state in which the entry `e` is on the entry
list but on no attachment list yet (its `mle_profile` is not constrained): the
state between the two halves of a `SET` request. -/
def DetachedInv (s : State) (es : List Nat) (att : Nat → List Nat) (e : Nat) : Prop :=
  ProfileTableInv s ∧
  EntryList s es ∧ es.Nodup ∧ (∀ e' ∈ es, e' < s.nentries) ∧
  (∀ e1 ∈ es, ∀ e2 ∈ es, (s.entries e1).mle_ifp = (s.entries e2).mle_ifp →
    (s.entries e1).mle_vlan = (s.entries e2).mle_vlan → e1 = e2) ∧
  (∀ p ∈ s.mac_limit_profile_tbl.getD [],
    IsList s.heads (Node.mlp_list p) ((att p).map Node.mle_profile_list)) ∧
  (∀ p ∈ s.mac_limit_profile_tbl.getD [], ∀ e' ∈ att p,
    e' ∈ es ∧ e' ≠ e ∧ (s.entries e').mle_profile = some p) ∧
  (∀ e' ∈ es, e' ≠ e → ∃ p ∈ s.mac_limit_profile_tbl.getD [],
    (s.entries e').mle_profile = some p ∧ e' ∈ att p)

instance (s : State) (es : List Nat) (att : Nat → List Nat) : Decidable (AttachInv s es att) := by
  unfold AttachInv
  infer_instance

/-- The interface table of the examples: the one interface `"dp0p1"`, at
address 100. -/
def example_ifnet : String → Option Nat :=
  fun ifname => if ifname = "dp0p1" then some 100 else none

/-- The state of the examples: the profiles `"q"` (address 0, limit 5) and `"p"`
(address 1, limit 7), and one entry (address 0) for interface 100 and VLAN 10
attached to `"q"`.  It is the state after the requests `SET profile q 5`,
`SET profile p 7` and `SET dp0p1 10 q`. -/
def State.attached : State where
  mac_limit_profile_tbl := some [0, 1]
  mac_limit_list := true
  heads := fun n =>
    match n with
    | Node.null => ⟨Node.null, Node.null⟩
    | Node.mac_limit_list => ⟨Node.mle_list 0, Node.mle_list 0⟩
    | Node.mle_list _ => ⟨Node.mac_limit_list, Node.mac_limit_list⟩
    | Node.mlp_list 0 => ⟨Node.mle_profile_list 0, Node.mle_profile_list 0⟩
    | Node.mlp_list p => ⟨Node.mlp_list p, Node.mlp_list p⟩
    | Node.mle_profile_list _ => ⟨Node.mlp_list 0, Node.mlp_list 0⟩
  profiles := fun p => if p = 0 then ⟨"q", 5⟩ else ⟨"p", 7⟩
  entries := fun _ => ⟨100, 10, some 0⟩
  nprofiles := 2
  nentries := 1
  rcu_free_profiles := []
  rcu_free_entries := []

end MacLimit

/-! ## Theorems -/

namespace NhCommon

/-- A word masked with the union of two masks is zero exactly when it is zero
under both masks. -/
theorem and_lor_eq_zero_iff (a b c : Nat) :
    a &&& (b ||| c) = 0 ↔ a &&& b = 0 ∧ a &&& c = 0 := by
  rw [Nat.and_or_distrib_left]
  constructor
  · intro h
    constructor
    · apply Nat.eq_of_testBit_eq
      intro i
      have := congrArg (fun n => n.testBit i) h
      simp only [Nat.testBit_or, Nat.zero_testBit, Bool.or_eq_false_iff] at this
      simpa using this.1
    · apply Nat.eq_of_testBit_eq
      intro i
      have := congrArg (fun n => n.testBit i) h
      simp only [Nat.testBit_or, Nat.zero_testBit, Bool.or_eq_false_iff] at this
      simpa using this.2
  · rintro ⟨h1, h2⟩
    rw [h1, h2]
    rfl

/-- C1: `nh_get_lle` returns `NULL` when neither `RTF_NEIGH_CREATED` nor
`RTF_NEIGH_PRESENT` is set in the flags (both `nh_is_neigh_created` and
`nh_is_neigh_present` are false), and returns the stored `u.lle` when at least
one of the two is set; with neither flag set the result is `NULL` whatever the
union word holds, so the link-layer member is only read under one of the
flags. -/
theorem nh_get_lle_spec (RTF_NEIGH_CREATED RTF_NEIGH_PRESENT : Nat) (nh : next_hop) :
    (nh_is_neigh_created RTF_NEIGH_CREATED nh = false ∧
      nh_is_neigh_present RTF_NEIGH_PRESENT nh = false →
      nh_get_lle RTF_NEIGH_CREATED RTF_NEIGH_PRESENT nh = 0) ∧
    (nh_is_neigh_created RTF_NEIGH_CREATED nh = true ∨
      nh_is_neigh_present RTF_NEIGH_PRESENT nh = true →
      nh_get_lle RTF_NEIGH_CREATED RTF_NEIGH_PRESENT nh = nh.u) ∧
    (nh_is_neigh_created RTF_NEIGH_CREATED nh = false ∧
      nh_is_neigh_present RTF_NEIGH_PRESENT nh = false →
      ∀ w : Nat, nh_get_lle RTF_NEIGH_CREATED RTF_NEIGH_PRESENT { nh with u := w } = 0) := by
  have key := and_lor_eq_zero_iff nh.flags RTF_NEIGH_CREATED RTF_NEIGH_PRESENT
  have hc : nh_is_neigh_created RTF_NEIGH_CREATED nh = false ↔
      nh.flags &&& RTF_NEIGH_CREATED = 0 := by
    simp [nh_is_neigh_created]
  have hp : nh_is_neigh_present RTF_NEIGH_PRESENT nh = false ↔
      nh.flags &&& RTF_NEIGH_PRESENT = 0 := by
    simp [nh_is_neigh_present]
  refine ⟨?_, ?_, ?_⟩
  · intro h
    have h0 := key.mpr ⟨hc.mp h.1, hp.mp h.2⟩
    simp [nh_get_lle, h0]
  · intro h
    have hne : nh.flags &&& (RTF_NEIGH_CREATED ||| RTF_NEIGH_PRESENT) ≠ 0 := by
      intro h0
      have := key.mp h0
      rcases h with h | h
      · rw [hc.mpr this.1] at h
        cases h
      · rw [hp.mpr this.2] at h
        cases h
    simp [nh_get_lle, hne]
  · intro h w
    have h0 := key.mpr ⟨hc.mp h.1, hp.mp h.2⟩
    simp [nh_get_lle, h0]

/-- C1 at concrete next hops: with flag words `0x1000` and `0x800`, a next hop
with flags `0x2` yields `NULL` and one with flags `0x802` yields its word. -/
theorem nh_get_lle_spec_witness :
    nh_get_lle 0x1000 0x800 ⟨77, 0x2, 0, 0⟩ = 0 ∧
    nh_get_lle 0x1000 0x800 ⟨77, 0x802, 0, 0⟩ = 77 :=
  ⟨(nh_get_lle_spec 0x1000 0x800 ⟨77, 0x2, 0, 0⟩).1 (by decide),
   (nh_get_lle_spec 0x1000 0x800 ⟨77, 0x802, 0, 0⟩).2.1 (by decide)⟩

/-- C2: for an array of `N ≥ 1` members and a 32-bit flow hash, the selector
returns member number `hash mod N`; the result is a function of the members and
the hash, every member is reached by one of the hashes `0..N-1`, and a
one-member group returns its only member for every hash. -/
theorem nexthop_mp_select_spec (next : List next_hop) (hash : Nat)
    (hN : 1 ≤ next.length) :
    (∃ h : hash % next.length < next.length,
      nexthop_mp_select next next.length hash = some (next.get ⟨hash % next.length, h⟩)) ∧
    (∀ i (hi : i < next.length),
      nexthop_mp_select next next.length i = some (next.get ⟨i, hi⟩)) ∧
    (∀ m ∈ next, ∃ i, i < next.length ∧ nexthop_mp_select next next.length i = some m) ∧
    (∀ m, next = [m] → nexthop_mp_select next next.length hash = some m) := by
  have hpos : 0 < next.length := hN
  have sel : ∀ k, nexthop_mp_select next next.length k = next[k % next.length]? := by
    intro k
    unfold nexthop_mp_select
    by_cases h1 : next.length = 1
    · simp [h1, Nat.mod_one]
    · have h0 : next.length ≠ 0 := by omega
      simp [h1, h0]
  refine ⟨⟨Nat.mod_lt _ hpos, ?_⟩, ?_, ?_, ?_⟩
  · rw [sel, List.getElem?_eq_getElem (Nat.mod_lt _ hpos)]
    rfl
  · intro i hi
    rw [sel, Nat.mod_eq_of_lt hi, List.getElem?_eq_getElem hi]
    rfl
  · intro m hm
    obtain ⟨i, hi, rfl⟩ := List.getElem_of_mem hm
    exact ⟨i, hi, by rw [sel, Nat.mod_eq_of_lt hi, List.getElem?_eq_getElem hi]⟩
  · rintro m rfl
    rw [sel]
    simp [Nat.mod_one]

/-- C2 at a concrete group of three members and hash `7`: member `7 mod 3 = 1`. -/
theorem nexthop_mp_select_spec_witness :
    nexthop_mp_select [⟨1, 0, 0, 0⟩, ⟨2, 0, 0, 0⟩, ⟨3, 0, 0, 0⟩] 3 7 = some ⟨2, 0, 0, 0⟩ := by
  obtain ⟨_, h⟩ := (nexthop_mp_select_spec
    [⟨1, 0, 0, 0⟩, ⟨2, 0, 0, 0⟩, ⟨3, 0, 0, 0⟩] 7 (by decide)).1
  exact h

end NhCommon

namespace CryptoRtePmd

open rte_crypto_cipher_algorithm rte_crypto_auth_algorithm rte_crypto_aead_algorithm

/-- The GCM set-up returns `0` or `-EINVAL`. -/
theorem setup_aes_gcm_ret (K : Consts) (ctx : crypto_session) (a : xfrm_algo) :
    (crypto_rte_setup_aes_gcm_cipher K ctx a).1 = 0 ∨
    (crypto_rte_setup_aes_gcm_cipher K ctx a).1 = -EINVAL := by
  unfold crypto_rte_setup_aes_gcm_cipher
  simp only
  split_ifs <;> simp

/-- The cipher step returns `0` or `-EINVAL`. -/
theorem set_cipher_ret (K : Consts) (ctx : crypto_session) (a : xfrm_algo) :
    (crypto_rte_set_cipher K ctx a).1 = 0 ∨ (crypto_rte_set_cipher K ctx a).1 = -EINVAL := by
  unfold crypto_rte_set_cipher
  simp only
  split_ifs with h1 h2 h3 h4
  · right
    rcases setup_aes_gcm_ret K { ctx with cipher_algo := RTE_CRYPTO_CIPHER_LIST_END } a with h | h
    · exact absurd h h2
    · exact h
  all_goals simp

/-- The auth step returns `0` or `-EINVAL`. -/
theorem set_auth_ret (ctx : crypto_session) (a : xfrm_algo_auth) :
    (crypto_rte_set_auth ctx a).1 = 0 ∨ (crypto_rte_set_auth ctx a).1 = -EINVAL := by
  unfold crypto_rte_set_auth
  simp only
  split_ifs <;> simp

/-- The GCM set-up writes none of the auth fields of the session. -/
theorem setup_aes_gcm_auth_fields (K : Consts) (ctx : crypto_session) (a : xfrm_algo) :
    let c := (crypto_rte_setup_aes_gcm_cipher K ctx a).2
    c.auth_algo = ctx.auth_algo ∧ c.md_name = ctx.md_name ∧
    c.auth_alg_key = ctx.auth_alg_key ∧ c.auth_alg_key_len = ctx.auth_alg_key_len ∧
    c.digest_len = ctx.digest_len := by
  unfold crypto_rte_setup_aes_gcm_cipher
  simp only
  split_ifs <;> simp

/-- The cipher step writes none of the auth fields of the session. -/
theorem set_cipher_auth_fields (K : Consts) (ctx : crypto_session) (a : xfrm_algo) :
    let c := (crypto_rte_set_cipher K ctx a).2
    c.auth_algo = ctx.auth_algo ∧ c.md_name = ctx.md_name ∧
    c.auth_alg_key = ctx.auth_alg_key ∧ c.auth_alg_key_len = ctx.auth_alg_key_len ∧
    c.digest_len = ctx.digest_len := by
  unfold crypto_rte_set_cipher
  simp only
  split_ifs with h1 h2 h3 h4
  · exact setup_aes_gcm_auth_fields K _ a
  · exact setup_aes_gcm_auth_fields K _ a
  all_goals (split <;> simp)

/-- Whether the GCM set-up accepts does not depend on the session. -/
theorem setup_aes_gcm_ret_indep (K : Consts) (ctx ctx' : crypto_session) (a : xfrm_algo) :
    (crypto_rte_setup_aes_gcm_cipher K ctx' a).1 = (crypto_rte_setup_aes_gcm_cipher K ctx a).1 := by
  unfold crypto_rte_setup_aes_gcm_cipher
  simp only
  split_ifs <;> rfl

/-- Whether the cipher step accepts depends on the algorithm and the key
length only, not on the session it is called with. -/
theorem set_cipher_ret_indep (K : Consts) (ctx ctx' : crypto_session) (a : xfrm_algo) :
    (crypto_rte_set_cipher K ctx' a).1 = (crypto_rte_set_cipher K ctx a).1 := by
  unfold crypto_rte_set_cipher
  simp only
  by_cases h1 : "rfc4106(gcm(aes))" = a.alg_name
  · have aux : ∀ r : Int × crypto_session, (if r.1 ≠ 0 then r else (0, r.2)).1 = r.1 := by
      intro r
      split_ifs with h
      · rfl
      · simp only [ne_eq, not_not] at h
        simp [h]
    simp only [h1, if_true, aux]
    exact setup_aes_gcm_ret_indep K { ctx with cipher_algo := RTE_CRYPTO_CIPHER_LIST_END }
      { ctx' with cipher_algo := RTE_CRYPTO_CIPHER_LIST_END } a
  · simp only [h1, if_false]
    cases hf : (cipher_algorithms K).find? (fun row => decide (row.name = a.alg_name)) with
    | none => simp
    | some row => simp only []; split_ifs <;> rfl

/-- Whether the auth step accepts depends on the algorithm and the key length
only, not on the session it is called with. -/
theorem set_auth_ret_indep (ctx ctx' : crypto_session) (a : xfrm_algo_auth) :
    (crypto_rte_set_auth ctx' a).1 = (crypto_rte_set_auth ctx a).1 := by
  unfold crypto_rte_set_auth
  simp only
  cases hf : md_algorithms.find? (fun row => decide (row.name = a.alg_name)) with
  | none => simp
  | some row => simp only []; split_ifs <;> rfl

/-- C3: `crypto_rte_set_session_parameters` returns `0` exactly when the cipher
step accepts and the auth step accepts, and `-EINVAL` otherwise; acceptance by
either step depends on its algorithm argument only; when the cipher is rejected
the result is the result of the cipher step whatever the auth algorithm is, and
the auth fields of the session keep their previous values. -/
theorem set_session_parameters_spec (K : Consts) (ctx : crypto_session)
    (algo_crypt : xfrm_algo) (algo_auth : xfrm_algo_auth) :
    ((crypto_rte_set_session_parameters K ctx algo_crypt algo_auth).1 = 0 ↔
      (crypto_rte_set_cipher K ctx algo_crypt).1 = 0 ∧
      (crypto_rte_set_auth ctx algo_auth).1 = 0) ∧
    ((crypto_rte_set_session_parameters K ctx algo_crypt algo_auth).1 ≠ 0 →
      (crypto_rte_set_session_parameters K ctx algo_crypt algo_auth).1 = -EINVAL) ∧
    (∀ ctx', (crypto_rte_set_cipher K ctx' algo_crypt).1 =
      (crypto_rte_set_cipher K ctx algo_crypt).1) ∧
    (∀ ctx', (crypto_rte_set_auth ctx' algo_auth).1 = (crypto_rte_set_auth ctx algo_auth).1) ∧
    ((crypto_rte_set_cipher K ctx algo_crypt).1 ≠ 0 →
      (∀ algo_auth', crypto_rte_set_session_parameters K ctx algo_crypt algo_auth' =
        crypto_rte_set_cipher K ctx algo_crypt) ∧
      (crypto_rte_set_session_parameters K ctx algo_crypt algo_auth).2.auth_algo
        = ctx.auth_algo ∧
      (crypto_rte_set_session_parameters K ctx algo_crypt algo_auth).2.md_name
        = ctx.md_name ∧
      (crypto_rte_set_session_parameters K ctx algo_crypt algo_auth).2.auth_alg_key
        = ctx.auth_alg_key ∧
      (crypto_rte_set_session_parameters K ctx algo_crypt algo_auth).2.auth_alg_key_len
        = ctx.auth_alg_key_len ∧
      (crypto_rte_set_session_parameters K ctx algo_crypt algo_auth).2.digest_len
        = ctx.digest_len) := by
  refine ⟨?_, ?_, ?_, ?_, ?_⟩
  · unfold crypto_rte_set_session_parameters
    simp only
    by_cases hc : (crypto_rte_set_cipher K ctx algo_crypt).1 = 0
    · simp only [hc, ne_eq, not_true_eq_false, if_false, true_and]
      rw [set_auth_ret_indep ctx]
    · simp [hc]
  · intro _
    unfold crypto_rte_set_session_parameters
    simp only
    by_cases hc : (crypto_rte_set_cipher K ctx algo_crypt).1 = 0
    · simp only [hc, ne_eq, not_true_eq_false, if_false]
      rcases set_auth_ret (crypto_rte_set_cipher K ctx algo_crypt).2 algo_auth with h | h
      · rename_i hne
        exfalso
        apply hne
        unfold crypto_rte_set_session_parameters
        simp only [hc, ne_eq, not_true_eq_false, if_false]
        exact h
      · exact h
    · simp only [ne_eq, hc, not_false_eq_true, if_true]
      rcases set_cipher_ret K ctx algo_crypt with h | h
      · exact absurd h hc
      · exact h
  · intro ctx'
    exact set_cipher_ret_indep K ctx ctx' algo_crypt
  · intro ctx'
    exact set_auth_ret_indep ctx ctx' algo_auth
  · intro hc
    have hall : ∀ algo_auth', crypto_rte_set_session_parameters K ctx algo_crypt algo_auth' =
        crypto_rte_set_cipher K ctx algo_crypt := by
      intro algo_auth'
      unfold crypto_rte_set_session_parameters
      simp [hc]
    refine ⟨hall, ?_⟩
    rw [hall algo_auth]
    exact set_cipher_auth_fields K ctx algo_crypt

/-- C3 at a concrete request: an unknown cipher name is rejected with `-EINVAL`
and the auth fields of the session are left alone. -/
theorem set_session_parameters_spec_witness :
    (crypto_rte_set_session_parameters ⟨4, 8, 16, 8, 32, 32⟩
      ⟨.other 0, .other 0, .other 7, "", "old", 0, 0, 0, [], [], [1, 2], 2, 12⟩
      ⟨"cbc(rot13)", 128, []⟩ ⟨"hmac(sha1)", 160, 96, []⟩).2.md_name = "old" :=
  ((set_session_parameters_spec ⟨4, 8, 16, 8, 32, 32⟩
      ⟨.other 0, .other 0, .other 7, "", "old", 0, 0, 0, [], [], [1, 2], 2, 12⟩
      ⟨"cbc(rot13)", 128, []⟩ ⟨"hmac(sha1)", 160, 96, []⟩).2.2.2.2 (by decide)).2.2.1

/-- Narrowing a natural number to `uint16_t`. -/
theorem to_u16_natCast (n : Nat) : to_u16 (n : Int) = n % 65536 := by
  unfold to_u16
  omega

/-- The 16-bit subtraction `key_len -= 4`. -/
theorem to_u16_sub_four (k : Nat) (hk : k < 65536) :
    to_u16 ((k : Int) - ((4 : Nat) : Int)) = if 4 ≤ k then k - 4 else k + 65532 := by
  unfold to_u16
  split_ifs <;> omega

/-- For the name `"rfc4106(gcm(aes))"` the cipher step is the GCM set-up run on
the session whose `cipher_algo` was reset. -/
theorem set_cipher_gcm_eq (K : Consts) (ctx : crypto_session) (len : Nat) (key : List Nat) :
    crypto_rte_set_cipher K ctx ⟨"rfc4106(gcm(aes))", len, key⟩ =
    crypto_rte_setup_aes_gcm_cipher K { ctx with cipher_algo := RTE_CRYPTO_CIPHER_LIST_END }
      ⟨"rfc4106(gcm(aes))", len, key⟩ := by
  unfold crypto_rte_set_cipher
  simp only [if_true]
  split_ifs with h
  · rfl
  · simp only [ne_eq, not_not] at h
    exact Prod.ext h.symm rfl

/-- The GCM set-up with a 4-byte nonce and a key buffer of at least 32 bytes,
in terms of the byte length narrowed to 16 bits. -/
theorem setup_aes_gcm_char (K : Consts) (ctx : crypto_session) (len : Nat) (key : List Nat)
    (hN : K.AES_GCM_NONCE_LENGTH = 4) (hK : 32 ≤ K.KEY_ARRAY_SIZE) :
    let r := crypto_rte_setup_aes_gcm_cipher K ctx ⟨"rfc4106(gcm(aes))", len, key⟩
    (r.1 = 0 ↔ (len / 8) % 65536 = 20 ∨ (len / 8) % 65536 = 36) ∧
    (r.1 ≠ 0 → r.1 = -EINVAL) ∧
    (r.1 = 0 →
      r.2.key_len = (len / 8) % 65536 - 4 ∧ r.2.nonce_len = 4 ∧
      r.2.key = memcpy ctx.key key r.2.key_len ∧
      r.2.nonce = memcpy ctx.nonce (key.drop r.2.key_len) 4) := by
  intro r
  have hlt : (len / 8) % 65536 < 65536 := Nat.mod_lt _ (by decide)
  have hr : r = crypto_rte_setup_aes_gcm_cipher K ctx ⟨"rfc4106(gcm(aes))", len, key⟩ := rfl
  unfold crypto_rte_setup_aes_gcm_cipher at hr
  simp only [BITS_PER_BYTE, hN, to_u16_natCast, to_u16_sub_four _ hlt] at hr
  generalize (len / 8) % 65536 = m at hr hlt ⊢
  by_cases h20 : m = 20
  · subst h20
    have h32 : ¬ (16 > K.KEY_ARRAY_SIZE) := by omega
    simp [h32] at hr
    simp [hr]
  by_cases h36 : m = 36
  · subst h36
    have h32 : ¬ (32 > K.KEY_ARRAY_SIZE) := by omega
    simp [h32] at hr
    simp [hr]
  have hrej : r.1 = -EINVAL := by
    rw [hr]
    by_cases h4 : 4 ≤ m
    · simp only [h4, if_true]
      have h1 : m - 4 ≠ 16 := by omega
      have h2 : m - 4 ≠ 32 := by omega
      simp only [h1, h2, ne_eq, not_false_eq_true, and_self, if_true]
      split_ifs <;> rfl
    · simp only [h4, if_false]
      have h0 : ¬ (m + 65532 < 4) := by omega
      have h1 : m + 65532 ≠ 16 := by omega
      have h2 : m + 65532 ≠ 32 := by omega
      simp [h0, h1, h2]
  have hne : r.1 ≠ 0 := by rw [hrej]; decide
  refine ⟨?_, fun _ => hrej, fun h => absurd h hne⟩
  simp [hne, h20, h36]

/-- What `crypto_rte_set_cipher` does for `"rfc4106(gcm(aes))"` with a 4-byte
nonce and a key buffer of at least 32 bytes: it returns `0` exactly when the
byte length of the key material, narrowed to 16 bits, is 20 or 36, and
`-EINVAL` otherwise; on success it records `key_len` 16 or 32 and `nonce_len` 4
and copies `key_len` bytes of key and the following 4 bytes of nonce. -/
theorem set_cipher_gcm_char (K : Consts) (ctx : crypto_session) (len : Nat) (key : List Nat)
    (hN : K.AES_GCM_NONCE_LENGTH = 4) (hK : 32 ≤ K.KEY_ARRAY_SIZE) :
    let r := crypto_rte_set_cipher K ctx ⟨"rfc4106(gcm(aes))", len, key⟩
    (r.1 = 0 ↔ (len / 8) % 65536 = 20 ∨ (len / 8) % 65536 = 36) ∧
    (r.1 ≠ 0 → r.1 = -EINVAL) ∧
    (r.1 = 0 →
      r.2.key_len = (len / 8) % 65536 - 4 ∧ r.2.nonce_len = 4 ∧
      r.2.key = memcpy ctx.key key r.2.key_len ∧
      r.2.nonce = memcpy ctx.nonce (key.drop r.2.key_len) 4) := by
  intro r
  have hr : r = crypto_rte_setup_aes_gcm_cipher K
      { ctx with cipher_algo := RTE_CRYPTO_CIPHER_LIST_END }
      ⟨"rfc4106(gcm(aes))", len, key⟩ := set_cipher_gcm_eq K ctx len key
  rw [hr]
  exact setup_aes_gcm_char K { ctx with cipher_algo := RTE_CRYPTO_CIPHER_LIST_END } len key hN hK

/-- The statement of `set_cipher_gcm_char` at a 160-bit key blob. -/
theorem set_cipher_gcm_char_witness :
    (crypto_rte_set_cipher ⟨4, 8, 16, 8, 32, 32⟩
      ⟨.other 0, .other 0, .other 0, "", "", 0, 0, 0, [], [], [], 0, 0⟩
      ⟨"rfc4106(gcm(aes))", 160, List.replicate 20 1⟩).1 = 0 :=
  (set_cipher_gcm_char ⟨4, 8, 16, 8, 32, 32⟩
      ⟨.other 0, .other 0, .other 0, "", "", 0, 0, 0, [], [], [], 0, 0⟩
      160 (List.replicate 20 1) rfl (by decide)).1.mpr (by decide)

/-- C9: with `AES_GCM_NONCE_LENGTH = 4` and a 32-byte key buffer, the 32-bit
key length `alg_key_len = 524448` bits, that is 65556 bytes of key material
(neither 20 nor 36), is accepted by `crypto_rte_set_cipher` for
`"rfc4106(gcm(aes))"`: the byte count is narrowed to 16 bits (20) before the
nonce length is subtracted, so the session records `key_len = 16` and the
function returns `0`. -/
theorem set_cipher_gcm_accepts_65556_bytes :
    (524448 : Nat) < 2 ^ 32 ∧ 524448 / 8 = 65556 ∧
    (crypto_rte_set_cipher ⟨4, 8, 16, 8, 32, 32⟩
      ⟨.other 0, .other 0, .other 0, "", "", 0, 0, 0, List.replicate 32 0, List.replicate 4 0,
        [], 0, 0⟩
      ⟨"rfc4106(gcm(aes))", 524448, List.replicate 65556 1⟩).1 = 0 ∧
    (crypto_rte_set_cipher ⟨4, 8, 16, 8, 32, 32⟩
      ⟨.other 0, .other 0, .other 0, "", "", 0, 0, 0, List.replicate 32 0, List.replicate 4 0,
        [], 0, 0⟩
      ⟨"rfc4106(gcm(aes))", 524448, List.replicate 65556 1⟩).2.key_len = 16 := by
  refine ⟨by decide, by decide, by decide, by decide⟩

end CryptoRtePmd

namespace MacLimit

/-- Searching a list with two predicates that agree on its members. -/
theorem find?_congr_mem {α : Type} (l : List α) (f g : α → Bool)
    (h : ∀ a ∈ l, f a = g a) : l.find? f = l.find? g := by
  induction l with
  | nil => rfl
  | cons a l ih =>
    have ha := h a (List.mem_cons_self a l)
    have hl : ∀ b ∈ l, f b = g b := fun b hb => h b (List.mem_cons_of_mem a hb)
    simp only [List.find?_cons, ha, ih hl]

/-- The lookup in terms of the table contents. -/
theorem find_profile_eq (s : State) (name : String) :
    mac_limit_find_profile s name =
      (s.mac_limit_profile_tbl.getD []).find? (fun p => decide (name = (s.profiles p).mlp_name)) := by
  unfold mac_limit_find_profile mac_limit_profile_match_fn
  cases s.mac_limit_profile_tbl <;> simp

/-- The lookup only reads the table and the names of the profiles in it. -/
theorem find_profile_congr (s s' : State) (name : String)
    (htbl : s'.mac_limit_profile_tbl.getD [] = s.mac_limit_profile_tbl.getD [])
    (hname : ∀ p ∈ s.mac_limit_profile_tbl.getD [],
      (s'.profiles p).mlp_name = (s.profiles p).mlp_name) :
    mac_limit_find_profile s' name = mac_limit_find_profile s name := by
  rw [find_profile_eq, find_profile_eq, htbl]
  apply find?_congr_mem
  intro p hp
  rw [hname p hp]

/-- A profile found by name is in the table and carries that name. -/
theorem find_profile_some (s : State) (name : String) (p : Nat)
    (h : mac_limit_find_profile s name = some p) :
    p ∈ s.mac_limit_profile_tbl.getD [] ∧ (s.profiles p).mlp_name = name := by
  rw [find_profile_eq] at h
  refine ⟨List.mem_of_find?_eq_some h, ?_⟩
  have := List.find?_some h
  simp only [decide_eq_true_eq] at this
  exact this.symm

/-- No profile of the table carries a name that is not found. -/
theorem find_profile_none (s : State) (name : String)
    (h : mac_limit_find_profile s name = none) :
    ∀ p ∈ s.mac_limit_profile_tbl.getD [], (s.profiles p).mlp_name ≠ name := by
  rw [find_profile_eq] at h
  intro p hp hn
  have := List.find?_eq_none.mp h p hp
  simp [hn] at this

/-- With distinct names in the table, a profile of the table is the one found
under its name. -/
theorem find_profile_of_mem (s : State) (p : Nat) (hinv : ProfileTableInv s)
    (hp : p ∈ s.mac_limit_profile_tbl.getD []) :
    mac_limit_find_profile s (s.profiles p).mlp_name = some p := by
  cases h : mac_limit_find_profile s (s.profiles p).mlp_name with
  | none => exact absurd rfl (find_profile_none s _ h p hp)
  | some q =>
    obtain ⟨hq, hn⟩ := find_profile_some s _ q h
    have := List.inj_on_of_nodup_map hinv.2 hq hp hn
    rw [this]

/-- With every allocation succeeding and the name absent, `mac_limit_add_profile`
allocates the next profile, names it, links it into the table and initialises
its attachment list. -/
theorem add_profile_new (A : Alloc) (s : State) (name : String)
    (h1 : A.lfht_new = true) (h2 : A.calloc_profile = true) (h3 : A.strdup_name = true)
    (hnone : mac_limit_find_profile s name = none) :
    mac_limit_add_profile A s name =
      (some s.nprofiles,
        { s with
          mac_limit_profile_tbl := some (s.mac_limit_profile_tbl.getD [] ++ [s.nprofiles])
          nprofiles := s.nprofiles + 1
          profiles := Function.update s.profiles s.nprofiles ⟨name, 0⟩
          heads := CDS_INIT_LIST_HEAD s.heads (Node.mlp_list s.nprofiles) }) := by
  rw [find_profile_eq] at hnone
  unfold mac_limit_add_profile
  simp only [h1, h2, h3, Bool.true_eq_false, and_false, if_false]
  have : List.find? (mac_limit_profile_match_fn
      { s with mac_limit_profile_tbl := some (s.mac_limit_profile_tbl.getD []) } name)
      (s.mac_limit_profile_tbl.getD []) = none := hnone
  rw [this]

/-- The result of `mac_limit_set_profile` with action `SET` when the name is in
the table. -/
theorem set_profile_SET_present (A : Alloc) (s : State) (name : String) (limit p : Nat)
    (h : mac_limit_find_profile s name = some p) :
    mac_limit_set_profile A s ⟨Action.SET, some name, limit⟩ =
      (0, mac_limit_profile_set_limit s p limit) := by
  unfold mac_limit_set_profile
  simp [h]

/-- The result of `mac_limit_set_profile` with action `SET` when the name is
not in the table and every allocation succeeds. -/
theorem set_profile_SET_absent (A : Alloc) (s : State) (name : String) (limit : Nat)
    (h1 : A.lfht_new = true) (h2 : A.calloc_profile = true) (h3 : A.strdup_name = true)
    (h : mac_limit_find_profile s name = none) :
    mac_limit_set_profile A s ⟨Action.SET, some name, limit⟩ =
      (0, mac_limit_profile_set_limit
        { s with
          mac_limit_profile_tbl := some (s.mac_limit_profile_tbl.getD [] ++ [s.nprofiles])
          nprofiles := s.nprofiles + 1
          profiles := Function.update s.profiles s.nprofiles ⟨name, 0⟩
          heads := CDS_INIT_LIST_HEAD s.heads (Node.mlp_list s.nprofiles) }
        s.nprofiles limit) := by
  unfold mac_limit_set_profile
  simp [h, add_profile_new A s name h1 h2 h3 h]

/-- C4: with a profile name and every allocation succeeding,
`mac_limit_set_profile` with action `SET` returns `0`, and afterwards
`mac_limit_find_profile` returns a profile of that name whose `mlp_limit` is
the limit of the request.  When the name was absent the profile is the newly
allocated one, linked into the table, with an empty attachment list; when the
name was present it is the existing profile and the table, every list head and
every entry are as before.  Every other profile is unchanged and is found under
its name as before. -/
theorem set_profile_SET_spec (A : Alloc) (s : State) (name : String) (limit : Nat)
    (h1 : A.lfht_new = true) (h2 : A.calloc_profile = true) (h3 : A.strdup_name = true)
    (hinv : ProfileTableInv s) :
    (mac_limit_set_profile A s ⟨Action.SET, some name, limit⟩).1 = 0 ∧
    ∃ p, mac_limit_find_profile (mac_limit_set_profile A s ⟨Action.SET, some name, limit⟩).2 name
        = some p ∧
      ((mac_limit_set_profile A s ⟨Action.SET, some name, limit⟩).2.profiles p).mlp_limit
        = limit ∧
      ((mac_limit_set_profile A s ⟨Action.SET, some name, limit⟩).2.profiles p).mlp_name
        = name ∧
      (mac_limit_find_profile s name = none →
        p = s.nprofiles ∧
        (mac_limit_set_profile A s ⟨Action.SET, some name, limit⟩).2.mac_limit_profile_tbl
          = some (s.mac_limit_profile_tbl.getD [] ++ [p]) ∧
        cds_list_empty (mac_limit_set_profile A s ⟨Action.SET, some name, limit⟩).2.heads
          (Node.mlp_list p) = true) ∧
      (∀ q, mac_limit_find_profile s name = some q →
        p = q ∧
        (mac_limit_set_profile A s ⟨Action.SET, some name, limit⟩).2.mac_limit_profile_tbl
          = s.mac_limit_profile_tbl ∧
        (mac_limit_set_profile A s ⟨Action.SET, some name, limit⟩).2.heads = s.heads) ∧
      (∀ q, q ≠ p →
        (mac_limit_set_profile A s ⟨Action.SET, some name, limit⟩).2.profiles q
          = s.profiles q) ∧
      (∀ n, n ≠ Node.mlp_list p →
        (mac_limit_set_profile A s ⟨Action.SET, some name, limit⟩).2.heads n = s.heads n) ∧
      (mac_limit_set_profile A s ⟨Action.SET, some name, limit⟩).2.entries = s.entries ∧
      (mac_limit_set_profile A s ⟨Action.SET, some name, limit⟩).2.mac_limit_list
        = s.mac_limit_list ∧
      (∀ other, other ≠ name →
        mac_limit_find_profile (mac_limit_set_profile A s ⟨Action.SET, some name, limit⟩).2
          other = mac_limit_find_profile s other) := by
  cases hf : mac_limit_find_profile s name with
  | some q =>
    rw [set_profile_SET_present A s name limit q hf]
    obtain ⟨hq, hn⟩ := find_profile_some s name q hf
    have hnames : ∀ p ∈ s.mac_limit_profile_tbl.getD [],
        ((mac_limit_profile_set_limit s q limit).profiles p).mlp_name
          = (s.profiles p).mlp_name := by
      intro p _
      unfold mac_limit_profile_set_limit
      by_cases hpq : p = q
      · subst hpq; simp
      · simp [Function.update_noteq hpq]
    refine ⟨rfl, q, ?_, ?_, ?_, ?_, ?_, ?_, ?_, rfl, rfl, ?_⟩
    · show mac_limit_find_profile (mac_limit_profile_set_limit s q limit) name = some q
      rw [find_profile_congr s (mac_limit_profile_set_limit s q limit) name rfl hnames]
      exact hf
    · simp [mac_limit_profile_set_limit]
    · simp [mac_limit_profile_set_limit, hn]
    · intro h; cases h
    · intro q' hq'
      cases hq'
      exact ⟨rfl, rfl, rfl⟩
    · intro q' hq'
      simp [mac_limit_profile_set_limit, Function.update_noteq hq']
    · intro n _
      rfl
    · intro other _
      exact find_profile_congr s (mac_limit_profile_set_limit s q limit) other rfl hnames
  | none =>
    rw [set_profile_SET_absent A s name limit h1 h2 h3 hf]
    have hfresh : s.nprofiles ∉ s.mac_limit_profile_tbl.getD [] := by
      intro hmem
      exact absurd (hinv.1 _ hmem) (lt_irrefl _)
    have hnames : ∀ p ∈ s.mac_limit_profile_tbl.getD [], ∀ v,
        Function.update s.profiles s.nprofiles v p = s.profiles p := by
      intro p hp v
      have hne : p ≠ s.nprofiles := fun h => hfresh (h ▸ hp)
      exact Function.update_noteq hne _ _
    have hfind : ∀ other, mac_limit_find_profile (mac_limit_profile_set_limit
        { s with
          mac_limit_profile_tbl := some (s.mac_limit_profile_tbl.getD [] ++ [s.nprofiles])
          nprofiles := s.nprofiles + 1
          profiles := Function.update s.profiles s.nprofiles ⟨name, 0⟩
          heads := CDS_INIT_LIST_HEAD s.heads (Node.mlp_list s.nprofiles) }
        s.nprofiles limit) other =
        ((mac_limit_find_profile s other).or (if other = name then some s.nprofiles else none)) := by
      intro other
      rw [find_profile_eq, find_profile_eq]
      simp only [mac_limit_profile_set_limit, Option.getD_some, List.find?_append,
        Function.update_idem]
      congr 1
      · apply find?_congr_mem
        intro p hp
        rw [hnames p hp]
      · by_cases hon : other = name
        · simp [List.find?_cons, hon]
        · have hno : ¬ name = other := fun h => hon h.symm
          simp [List.find?_cons, hon, hno]
    refine ⟨rfl, s.nprofiles, ?_, ?_, ?_, ?_, ?_, ?_, ?_, rfl, rfl, ?_⟩
    · rw [hfind, hf]; simp
    · simp [mac_limit_profile_set_limit]
    · simp [mac_limit_profile_set_limit]
    · intro _
      refine ⟨rfl, rfl, ?_⟩
      simp [mac_limit_profile_set_limit, cds_list_empty, CDS_INIT_LIST_HEAD]
    · intro q hq; cases hq
    · intro q hq
      simp [mac_limit_profile_set_limit, Function.update_noteq hq]
    · intro n hn
      simp [mac_limit_profile_set_limit, CDS_INIT_LIST_HEAD, Function.update_noteq hn]
    · intro other hother
      rw [hfind]
      simp [hother]

/-- C4 at start-up: setting profile `"p"` to limit 5 in the initial state. -/
theorem set_profile_SET_spec_witness :
    (mac_limit_set_profile Alloc.ok State.init ⟨Action.SET, some "p", 5⟩).1 = 0 :=
  (set_profile_SET_spec Alloc.ok State.init "p" 5 rfl rfl rfl (by decide)).1

/-- The result of `mac_limit_set_profile` with action `DELETE` when the name is
in the table: the limit is cleared, and the profile is deleted when its
attachment list is empty. -/
theorem set_profile_DELETE_present (A : Alloc) (s : State) (name : String) (limit p : Nat)
    (h : mac_limit_find_profile s name = some p) :
    mac_limit_set_profile A s ⟨Action.DELETE, some name, limit⟩ =
      if cds_list_empty s.heads (Node.mlp_list p) = true then
        (0, mac_limit_delete_profile (mac_limit_profile_set_limit s p 0) p)
      else (0, mac_limit_profile_set_limit s p 0) := by
  unfold mac_limit_set_profile
  simp only [h]
  by_cases he : cds_list_empty s.heads (Node.mlp_list p) = true
  · simp [he, mac_limit_profile_set_limit]
  · simp [he, mac_limit_profile_set_limit]

/-- The test that `mac_limit_set_profile` makes on a `DELETE`: for a profile
that is in the table the result is `0`; the profile is removed from the table,
and no longer found under its name, exactly when `cds_list_empty` holds of its
list head `mlp_list`; otherwise the table is as before and
`mac_limit_find_profile` still returns the profile.  No list head and no entry
is changed.  Whether an entry has the profile as its `mle_profile` is not
looked at. -/
theorem set_profile_DELETE_by_list (A : Alloc) (s : State) (name : String) (limit p : Nat)
    (hinv : ProfileTableInv s) (hfind : mac_limit_find_profile s name = some p) :
    (mac_limit_set_profile A s ⟨Action.DELETE, some name, limit⟩).1 = 0 ∧
    (p ∉ (mac_limit_set_profile A s ⟨Action.DELETE, some name, limit⟩).2.mac_limit_profile_tbl.getD []
      ↔ cds_list_empty s.heads (Node.mlp_list p) = true) ∧
    (mac_limit_find_profile (mac_limit_set_profile A s ⟨Action.DELETE, some name, limit⟩).2 name
      = none ↔ cds_list_empty s.heads (Node.mlp_list p) = true) ∧
    (cds_list_empty s.heads (Node.mlp_list p) = true →
      (mac_limit_set_profile A s ⟨Action.DELETE, some name, limit⟩).2.mac_limit_profile_tbl
        = s.mac_limit_profile_tbl.map (fun tbl => tbl.filter (· ≠ p)) ∧
      p ∈ (mac_limit_set_profile A s ⟨Action.DELETE, some name, limit⟩).2.rcu_free_profiles) ∧
    (cds_list_empty s.heads (Node.mlp_list p) = false →
      (mac_limit_set_profile A s ⟨Action.DELETE, some name, limit⟩).2.mac_limit_profile_tbl
        = s.mac_limit_profile_tbl ∧
      mac_limit_find_profile (mac_limit_set_profile A s ⟨Action.DELETE, some name, limit⟩).2 name
        = some p) ∧
    (mac_limit_set_profile A s ⟨Action.DELETE, some name, limit⟩).2.heads = s.heads ∧
    (mac_limit_set_profile A s ⟨Action.DELETE, some name, limit⟩).2.entries = s.entries := by
  obtain ⟨hp, hn⟩ := find_profile_some s name p hfind
  have hnames : ∀ q ∈ s.mac_limit_profile_tbl.getD [],
      ((mac_limit_profile_set_limit s p 0).profiles q).mlp_name = (s.profiles q).mlp_name := by
    intro q _
    unfold mac_limit_profile_set_limit
    by_cases hqp : q = p
    · subst hqp; simp
    · simp [Function.update_noteq hqp]
  have hkeep : mac_limit_find_profile (mac_limit_profile_set_limit s p 0) name = some p := by
    rw [find_profile_congr s (mac_limit_profile_set_limit s p 0) name rfl hnames]
    exact hfind
  by_cases he : cds_list_empty s.heads (Node.mlp_list p) = true
  · have hres : mac_limit_set_profile A s ⟨Action.DELETE, some name, limit⟩ =
        (0, mac_limit_delete_profile (mac_limit_profile_set_limit s p 0) p) := by
      rw [set_profile_DELETE_present A s name limit p hfind, if_pos he]
    rw [hres]
    have htbl : (mac_limit_delete_profile (mac_limit_profile_set_limit s p 0) p).mac_limit_profile_tbl.getD []
        = (s.mac_limit_profile_tbl.getD []).filter (· ≠ p) := by
      simp only [mac_limit_delete_profile, mac_limit_profile_set_limit]
      cases s.mac_limit_profile_tbl <;> simp
    have hnot : p ∉ (mac_limit_delete_profile (mac_limit_profile_set_limit s p 0) p).mac_limit_profile_tbl.getD [] := by
      rw [htbl]
      simp
    have hgone : mac_limit_find_profile
        (mac_limit_delete_profile (mac_limit_profile_set_limit s p 0) p) name = none := by
      cases hc : mac_limit_find_profile
          (mac_limit_delete_profile (mac_limit_profile_set_limit s p 0) p) name with
      | none => rfl
      | some q =>
        exfalso
        obtain ⟨hq, hqn⟩ := find_profile_some _ name q hc
        rw [htbl] at hq
        have hq' := List.mem_filter.mp hq
        have hqp : q ≠ p := by simpa using hq'.2
        have hqn' : (s.profiles q).mlp_name = name := by
          have : ((mac_limit_profile_set_limit s p 0).profiles q).mlp_name = name := hqn
          rw [hnames q hq'.1] at this
          exact this
        exact hqp (List.inj_on_of_nodup_map hinv.2 hq'.1 hp (hqn'.trans hn.symm))
    refine ⟨rfl, ⟨fun _ => he, fun _ => hnot⟩, ⟨fun _ => he, fun _ => hgone⟩, ?_, ?_, rfl, rfl⟩
    · intro _
      refine ⟨rfl, ?_⟩
      simp [mac_limit_delete_profile, mac_limit_profile_set_limit]
    · intro hc
      rw [he] at hc
      cases hc
  · have hres : mac_limit_set_profile A s ⟨Action.DELETE, some name, limit⟩ =
        (0, mac_limit_profile_set_limit s p 0) := by
      rw [set_profile_DELETE_present A s name limit p hfind, if_neg he]
    rw [hres]
    refine ⟨rfl, ⟨fun h => absurd hp h, fun h => absurd h he⟩, ⟨?_, fun h => absurd h he⟩,
      fun h => absurd h he, fun _ => ⟨rfl, hkeep⟩, rfl, rfl⟩
    intro h
    have h' : mac_limit_find_profile (mac_limit_profile_set_limit s p 0) name = none := h
    rw [hkeep] at h'
    cases h'

/-- The theorem `set_profile_DELETE_by_list` at a concrete state: the only
profile `"p"` has an empty attachment list and is deleted. -/
theorem set_profile_DELETE_by_list_witness :
    mac_limit_find_profile
      (mac_limit_set_profile Alloc.ok
        (mac_limit_set_profile Alloc.ok State.init ⟨Action.SET, some "p", 5⟩).2
        ⟨Action.DELETE, some "p", 0⟩).2 "p" = none :=
  (set_profile_DELETE_by_list Alloc.ok
    (mac_limit_set_profile Alloc.ok State.init ⟨Action.SET, some "p", 5⟩).2 "p" 0 0
    (by decide) (by decide)).2.2.1.mpr (by decide)

/-- The walk of `mle_find_entry` along a linked chain of entries finishes
within one step per entry plus one, with the first matching entry. -/
theorem find_loop_path (s : State) (ifp vlan : Nat) :
    ∀ (es : List Nat) (a : Node) (fuel : Nat),
      Path (fun n => (s.heads n).next) a (es.map Node.mle_list) Node.mac_limit_list →
      es.length < fuel →
      mle_find_loop s ifp vlan fuel (s.heads a).next =
        some (es.find? (fun e =>
          decide ((s.entries e).mle_ifp = ifp ∧ (s.entries e).mle_vlan = vlan))) := by
  intro es
  induction es with
  | nil =>
    intro a fuel hc hf
    obtain ⟨f, rfl⟩ : ∃ f, fuel = f + 1 := ⟨fuel - 1, by simp at hf; omega⟩
    simp only [List.map_nil, Path] at hc
    rw [hc]
    simp [mle_find_loop]
  | cons e es ih =>
    intro a fuel hc hf
    obtain ⟨f, rfl⟩ : ∃ f, fuel = f + 1 := ⟨fuel - 1, by simp at hf; omega⟩
    simp only [List.map_cons, Path] at hc
    have hf' : es.length < f := by simp at hf; omega
    rw [hc.1]
    have ih' := ih (Node.mle_list e) f hc.2 hf'
    by_cases hm : (s.entries e).mle_ifp = ifp ∧ (s.entries e).mle_vlan = vlan
    · simp [mle_find_loop, hm, List.find?_cons]
    · simp only [mle_find_loop, hm, if_false, List.find?_cons, decide_False]
      simpa using ih'

/-- The function `mle_find_entry` on a well-formed entry list returns, given one unit of fuel
per entry plus one, the first entry of the list with the interface and VLAN. -/
theorem find_entry_of_list (s : State) (es : List Nat) (fuel ifp vlan : Nat)
    (hl : EntryList s es) (hf : es.length < fuel) :
    mle_find_entry fuel s ifp vlan =
      some (es.find? (fun e =>
        decide ((s.entries e).mle_ifp = ifp ∧ (s.entries e).mle_vlan = vlan))) := by
  unfold EntryList at hl
  unfold mle_find_entry
  by_cases hb : s.mac_limit_list = true
  · simp only [hb, if_true] at hl
    simp only [hb, Bool.true_eq_false, if_false]
    exact find_loop_path s ifp vlan es Node.mac_limit_list fuel hl.1 hf
  · rw [if_neg hb] at hl
    subst hl
    have hb' : s.mac_limit_list = false := by simpa using hb
    simp [hb']

/-- The walk of `mle_find_entry` only reads the entries and the list heads. -/
theorem find_loop_congr (s s' : State) (ifp vlan : Nat)
    (he : s'.entries = s.entries) (hh : s'.heads = s.heads) :
    ∀ (fuel : Nat) (pos : Node),
      mle_find_loop s' ifp vlan fuel pos = mle_find_loop s ifp vlan fuel pos := by
  intro fuel
  induction fuel with
  | zero => intro pos; rfl
  | succ f ih =>
    intro pos
    cases pos <;> simp [mle_find_loop, he, hh, ih]

/-- The function `mle_find_entry` only reads the list pointer, the entries and the list
heads. -/
theorem find_entry_congr (s s' : State) (fuel ifp vlan : Nat)
    (hl : s'.mac_limit_list = s.mac_limit_list)
    (he : s'.entries = s.entries) (hh : s'.heads = s.heads) :
    mle_find_entry fuel s' ifp vlan = mle_find_entry fuel s ifp vlan := by
  unfold mle_find_entry
  rw [hl, hh, find_loop_congr s s' ifp vlan he hh]

/-- What `SameContents` means for the operations of the module: the same
profiles are found, the same entries are found, and every profile, entry and
list head other than the head of the entry list is as before. -/
theorem SameContents.observe (s s' : State) (h : SameContents s s') :
    s'.mac_limit_profile_tbl.getD [] = s.mac_limit_profile_tbl.getD [] ∧
    (∀ name, mac_limit_find_profile s' name = mac_limit_find_profile s name) ∧
    (∀ fuel ifp vlan,
      mle_find_entry (fuel + 1) s' ifp vlan = mle_find_entry (fuel + 1) s ifp vlan) ∧
    s'.profiles = s.profiles ∧ s'.entries = s.entries ∧
    (∀ n, n ≠ Node.mac_limit_list → s'.heads n = s.heads n) := by
  rcases h with h | ⟨h0, h⟩ | ⟨h0, h⟩
  · subst h
    exact ⟨rfl, fun _ => rfl, fun _ _ _ => rfl, rfl, rfl, fun _ _ => rfl⟩
  · subst h
    refine ⟨by simp [h0], ?_, fun _ _ _ => find_entry_congr _ _ _ _ _ rfl rfl rfl, rfl, rfl,
      fun _ _ => rfl⟩
    intro name
    simp [mac_limit_find_profile, h0]
  · subst h
    refine ⟨rfl, fun _ => rfl, ?_, rfl, rfl, ?_⟩
    · intro fuel ifp vlan
      simp [mle_find_entry, h0, mle_find_loop, CDS_INIT_LIST_HEAD]
    · intro n hn
      simp [CDS_INIT_LIST_HEAD, Function.update_noteq hn]

/-- A path only depends on the pointers of its start and inner nodes. -/
theorem Path.congr_map {f g : Node → Node} :
    ∀ {xs : List Node} {a b : Node}, (∀ n ∈ a :: xs, g n = f n) → Path f a xs b → Path g a xs b
  | [], a, b, h, hp => by
    unfold Path at hp ⊢
    rw [h a (List.mem_cons_self a [])]
    exact hp
  | x :: xs, a, b, h, hp => by
    unfold Path at hp ⊢
    refine ⟨by rw [h a (List.mem_cons_self a _)]; exact hp.1, ?_⟩
    exact Path.congr_map (fun n hn => h n (List.mem_cons_of_mem a hn)) hp.2

/-- A path through `xs ++ y :: ys` is a path to `y` followed by a path from `y`. -/
theorem Path.append_iff {f : Node → Node} :
    ∀ {xs : List Node} {a y : Node} {ys : List Node} {b : Node},
      Path f a (xs ++ y :: ys) b ↔ Path f a xs y ∧ Path f y ys b
  | [], a, y, ys, b => by simp [Path]
  | x :: xs, a, y, ys, b => by
    show (f a = x ∧ Path f x (xs ++ y :: ys) b) ↔ _
    rw [@Path.append_iff f xs x y ys b]
    simp only [Path, and_assoc]

/-- A path through `xs ++ [y]` is a path to `y` followed by one step. -/
theorem Path.snoc_iff {f : Node → Node} {xs : List Node} {a y b : Node} :
    Path f a (xs ++ [y]) b ↔ Path f a xs y ∧ f y = b := by
  rw [Path.append_iff]
  simp [Path]

/-- The first step of a path leads to the first node after the start. -/
theorem Path.first {f : Node → Node} {xs : List Node} {a b : Node} (h : Path f a xs b) :
    f a = (xs ++ [b]).head (by simp) := by
  cases xs with
  | nil => simpa [Path] using h
  | cons x xs => simpa [Path] using h.1

/-- Unlinking: when `x` is reached from `a` through `l` and `b` is reached from
`x` through `r`, redirecting the last node before `x` to the successor of `x`
gives a path from `a` through `l ++ r` to `b`. -/
theorem Path.unlink {f : Node → Node} {x b : Node} {r : List Node} :
    ∀ {l : List Node} {a : Node}, Path f a l x → Path f x r b → (a :: l ++ r).Nodup →
      Path (Function.update f ((a :: l).getLast (List.cons_ne_nil a l)) (f x)) a (l ++ r) b
  | [], a, hl, hr, hnd => by
    simp only [List.getLast_singleton, List.nil_append]
    have ha : a ∉ r := by
      simp only [List.nil_append, List.cons_append, List.nodup_cons] at hnd
      exact hnd.1
    cases r with
    | nil =>
      unfold Path at hr ⊢
      simp [hr]
    | cons y r =>
      unfold Path at hr ⊢
      refine ⟨by simp [hr.1], ?_⟩
      apply Path.congr_map _ hr.2
      intro n hn
      have : n ≠ a := fun h => ha (h ▸ hn)
      exact Function.update_noteq this _ _
  | c :: l, a, hl, hr, hnd => by
    unfold Path at hl
    have hnd' : (c :: l ++ r).Nodup := by
      simp only [List.cons_append, List.nodup_cons] at hnd ⊢
      exact hnd.2
    have ih := Path.unlink hl.2 hr hnd'
    have hlast : (a :: c :: l).getLast (List.cons_ne_nil a (c :: l))
        = (c :: l).getLast (List.cons_ne_nil c l) := List.getLast_cons_cons a c l
    rw [hlast]
    have hmem : (c :: l).getLast (List.cons_ne_nil c l) ∈ c :: l := List.getLast_mem _
    have hane : a ≠ (c :: l).getLast (List.cons_ne_nil c l) := by
      intro h
      simp only [List.cons_append, List.nodup_cons, List.mem_cons, List.mem_append] at hnd
      rw [← h] at hmem
      rcases List.mem_cons.mp hmem with h1 | h1
      · exact hnd.1 (Or.inl h1)
      · exact hnd.1 (Or.inr (Or.inl h1))
    show Path _ a (c :: (l ++ r)) b
    unfold Path
    exact ⟨by rw [Function.update_noteq hane]; exact hl.1, ih⟩

/-- Linking at the front: a new node `n` placed between `a` and its successor. -/
theorem Path.push_front {f : Node → Node} {a b n : Node} {l : List Node}
    (h : Path f a l b) (hn : n ∉ a :: l) (ha : a ∉ l) :
    Path (Function.update (Function.update f n (f a)) a n) a (n :: l) b := by
  have hna : n ≠ a := fun h' => hn (h' ▸ List.mem_cons_self _ _)
  unfold Path
  refine ⟨by simp, ?_⟩
  cases l with
  | nil =>
    unfold Path at h ⊢
    rw [Function.update_noteq hna, Function.update_same]
    exact h
  | cons y l =>
    unfold Path at h ⊢
    refine ⟨by rw [Function.update_noteq hna, Function.update_same]; exact h.1, ?_⟩
    apply Path.congr_map _ h.2
    intro m hm
    have hma : m ≠ a := fun h' => ha (h' ▸ hm)
    have hmn : m ≠ n := fun h' => hn (h' ▸ List.mem_cons_of_mem a hm)
    rw [Function.update_noteq hma, Function.update_noteq hmn]

/-- Linking at the back: the last step of a path is redirected to a new node
`n`, which leads on to `b`. -/
theorem Path.push_back {f : Node → Node} {b c n : Node} :
    ∀ {l : List Node} {a : Node}, Path f a l c → n ∉ a :: l → (a :: l).Nodup →
      Path (Function.update (Function.update f n b)
        ((a :: l).getLast (List.cons_ne_nil a l)) n) a (l ++ [n]) b
  | [], a, _, hn, _ => by
    have hna : n ≠ a := fun h' => hn (h' ▸ List.mem_cons_self _ _)
    simp only [List.getLast_singleton, List.nil_append]
    unfold Path
    refine ⟨by simp, ?_⟩
    unfold Path
    rw [Function.update_noteq hna, Function.update_same]
  | y :: l, a, h, hn, hnd => by
    unfold Path at h
    have hn' : n ∉ y :: l := fun h' => hn (List.mem_cons_of_mem a h')
    have hnd' : (y :: l).Nodup := (List.nodup_cons.mp hnd).2
    have ih := Path.push_back (b := b) h.2 hn' hnd'
    rw [List.getLast_cons_cons a y l]
    have hmem : (y :: l).getLast (List.cons_ne_nil y l) ∈ y :: l := List.getLast_mem _
    have hane : a ≠ (y :: l).getLast (List.cons_ne_nil y l) := by
      intro h'
      rw [← h'] at hmem
      exact (List.nodup_cons.mp hnd).1 hmem
    have han : a ≠ n := fun h' => hn (h' ▸ List.mem_cons_self _ _)
    show Path _ a (y :: (l ++ [n])) b
    unfold Path
    exact ⟨by rw [Function.update_noteq hane, Function.update_noteq han]; exact h.1, ih⟩

/-- The last node of `a :: l` in terms of the reversed list. -/
theorem getLast_cons_eq_head_reverse (a : Node) (l : List Node) :
    (a :: l).getLast (List.cons_ne_nil a l) = (l.reverse ++ [a]).head (by simp) := by
  rcases l.eq_nil_or_concat with rfl | ⟨l0, c, rfl⟩
  · rfl
  · simp

/-! ### The list primitives on well-formed lists -/

/-- The `next` pointers after `n->next = v`. -/
theorem next_set_next (H : Node → cds_list_head) (n v : Node) :
    (fun m => (set_next H n v m).next) = Function.update (fun m => (H m).next) n v := by
  funext m
  unfold set_next
  by_cases h : m = n
  · subst h; simp
  · simp [Function.update_noteq h]

/-- The `prev` pointers after `n->next = v`. -/
theorem prev_set_next (H : Node → cds_list_head) (n v : Node) :
    (fun m => (set_next H n v m).prev) = fun m => (H m).prev := by
  funext m
  unfold set_next
  by_cases h : m = n
  · subst h; simp
  · simp [Function.update_noteq h]

/-- The `next` pointers after `n->prev = v`. -/
theorem next_set_prev (H : Node → cds_list_head) (n v : Node) :
    (fun m => (set_prev H n v m).next) = fun m => (H m).next := by
  funext m
  unfold set_prev
  by_cases h : m = n
  · subst h; simp
  · simp [Function.update_noteq h]

/-- The `prev` pointers after `n->prev = v`. -/
theorem prev_set_prev (H : Node → cds_list_head) (n v : Node) :
    (fun m => (set_prev H n v m).prev) = Function.update (fun m => (H m).prev) n v := by
  funext m
  unfold set_prev
  by_cases h : m = n
  · subst h; simp
  · simp [Function.update_noteq h]

/-- A well-formed list only depends on the list heads of its own nodes. -/
theorem IsList.congr_heads {H H' : Node → cds_list_head} {h : Node} {xs : List Node}
    (hl : IsList H h xs) (hH : ∀ n ∈ h :: xs, H' n = H n) : IsList H' h xs := by
  obtain ⟨h1, h2, h3, h4⟩ := hl
  refine ⟨Path.congr_map (fun n hn => by rw [hH n hn]) h1, Path.congr_map (fun n hn => ?_) h2, h3, h4⟩
  have : n ∈ h :: xs := by
    rcases List.mem_cons.mp hn with h' | h'
    · exact h' ▸ List.mem_cons_self _ _
    · exact List.mem_cons_of_mem _ (List.mem_reverse.mp h')
  rw [hH n this]

/-- In a well-formed list the two neighbours of a member are nodes of the list. -/
theorem IsList.neighbours {H : Node → cds_list_head} {h : Node} {xs : List Node}
    (hl : IsList H h xs) {x : Node} (hx : x ∈ h :: xs) :
    (H x).next ∈ h :: xs ∧ (H x).prev ∈ h :: xs := by
  obtain ⟨h1, h2, _, _⟩ := hl
  have key : ∀ (f : Node → Node) (l : List Node) (a : Node), Path f a l h →
      ∀ y ∈ a :: l, f y ∈ h :: l := by
    intro f l
    induction l with
    | nil =>
      intro a hp y hy
      unfold Path at hp
      simp only [List.mem_singleton] at hy
      subst hy
      simp [hp]
    | cons c l ih =>
      intro a hp y hy
      unfold Path at hp
      rcases List.mem_cons.mp hy with rfl | hy'
      · rw [hp.1]; simp
      · have := ih c hp.2 y hy'
        rcases List.mem_cons.mp this with h' | h'
        · rw [h']; simp
        · exact List.mem_cons_of_mem _ (List.mem_cons_of_mem _ h')
  refine ⟨key _ xs h h1 x hx, ?_⟩
  have hx' : x ∈ h :: xs.reverse := by
    rcases List.mem_cons.mp hx with h' | h'
    · exact h' ▸ List.mem_cons_self _ _
    · exact List.mem_cons_of_mem _ (List.mem_reverse.mpr h')
  have := key _ xs.reverse h h2 x hx'
  rcases List.mem_cons.mp this with h' | h'
  · rw [h']; simp
  · exact List.mem_cons_of_mem _ (List.mem_reverse.mp h')

/-- The function `cds_list_del` only writes to the two neighbours of the element. -/
theorem cds_list_del_frame (H : Node → cds_list_head) (x n : Node)
    (h1 : n ≠ (H x).prev) (h2 : n ≠ (H x).next) : cds_list_del H x n = H n := by
  unfold cds_list_del set_next set_prev
  simp only
  rw [Function.update_noteq h1, Function.update_noteq h2]

/-- The function `cds_list_del` of a member of a well-formed list only writes to nodes of
that list. -/
theorem IsList.del_frame {H : Node → cds_list_head} {h : Node} {xs : List Node}
    (hl : IsList H h xs) {x : Node} (hx : x ∈ xs) (n : Node) (hn : n ∉ h :: xs) :
    cds_list_del H x n = H n := by
  have hnb := hl.neighbours (List.mem_cons_of_mem h hx)
  apply cds_list_del_frame
  · intro h'; exact hn (h' ▸ hnb.2)
  · intro h'; exact hn (h' ▸ hnb.1)

/-- The function `cds_list_del` of a member of a well-formed list leaves the well-formed list
without that member. -/
theorem IsList.del {H : Node → cds_list_head} {h : Node} {xs : List Node}
    (hl : IsList H h xs) {x : Node} (hx : x ∈ xs) :
    IsList (cds_list_del H x) h (xs.erase x) := by
  obtain ⟨h1, h2, h3, h4⟩ := hl
  obtain ⟨l, r, rfl⟩ := List.append_of_mem hx
  have hxl : x ∉ l := by
    intro h'
    have := List.nodup_append.mp h4
    exact this.2.2 h' (List.mem_cons_self x r)
  have hxr : x ∉ r := by
    have := (List.nodup_append.mp h4).2.1
    exact (List.nodup_cons.mp this).1
  have herase : (l ++ x :: r).erase x = l ++ r := by
    rw [List.erase_append_right _ hxl, List.erase_cons_head]
  have hnd : (l ++ r).Nodup := by
    rw [← herase]; exact h4.erase x
  have hh : h ∉ l ++ r := by
    intro h'
    apply h3
    rcases List.mem_append.mp h' with h'' | h''
    · exact List.mem_append_left _ h''
    · exact List.mem_append_right _ (List.mem_cons_of_mem _ h'')
  rw [herase]
  obtain ⟨n1, n2⟩ := Path.append_iff.mp h1
  have hrev : (l ++ x :: r).reverse = r.reverse ++ x :: l.reverse := by simp
  rw [hrev] at h2
  obtain ⟨p1, p2⟩ := Path.append_iff.mp h2
  have hu : (H x).prev = (h :: l).getLast (List.cons_ne_nil h l) := by
    rw [getLast_cons_eq_head_reverse]
    exact Path.first p2
  have hv : (H x).next = (h :: r.reverse).getLast (List.cons_ne_nil h r.reverse) := by
    rw [getLast_cons_eq_head_reverse]
    simp only [List.reverse_reverse]
    exact Path.first n2
  have hnd1 : (h :: l ++ r).Nodup := by
    simp only [List.cons_append, List.nodup_cons]
    exact ⟨hh, hnd⟩
  have hnd2 : (h :: r.reverse ++ l.reverse).Nodup := by
    simp only [List.cons_append, List.nodup_cons, List.mem_append, List.mem_reverse]
    refine ⟨fun h' => hh (List.mem_append.mpr h'.symm), ?_⟩
    rw [← List.reverse_append]
    exact List.nodup_reverse.mpr hnd
  refine ⟨?_, ?_, hh, hnd⟩
  · have := Path.unlink n1 n2 hnd1
    rw [← hu] at this
    unfold cds_list_del
    simp only [next_set_next, next_set_prev]
    exact this
  · have := Path.unlink p1 p2 hnd2
    rw [← hv] at this
    unfold cds_list_del
    simp only [prev_set_next, prev_set_prev, List.reverse_append]
    exact this

/-- The function `cds_list_add_rcu` only writes to the new node, the head and the first node
after the head. -/
theorem cds_list_add_rcu_frame (H : Node → cds_list_head) (newp head n : Node)
    (h1 : n ≠ newp) (h2 : n ≠ head) (h3 : n ≠ (H head).next) (hne : head ≠ newp) :
    cds_list_add_rcu H newp head n = H n := by
  unfold cds_list_add_rcu set_next set_prev
  simp only [Function.update_noteq hne, Function.update_noteq h1, Function.update_noteq h2,
    Function.update_noteq h3]

/-- The function `cds_list_add_rcu` of a new node to a well-formed list only writes to the
new node and to nodes of the list. -/
theorem IsList.add_rcu_frame {H : Node → cds_list_head} {h : Node} {xs : List Node}
    (hl : IsList H h xs) {newp : Node} (hnew : newp ∉ h :: xs) (n : Node)
    (hn : n ∉ newp :: h :: xs) : cds_list_add_rcu H newp h n = H n := by
  have hnb := hl.neighbours (List.mem_cons_self h xs)
  apply cds_list_add_rcu_frame
  · intro h'; exact hn (h' ▸ List.mem_cons_self _ _)
  · intro h'; exact hn (h' ▸ List.mem_cons_of_mem _ (List.mem_cons_self _ _))
  · intro h'; exact hn (h' ▸ List.mem_cons_of_mem _ hnb.1)
  · intro h'; exact hnew (h' ▸ List.mem_cons_self _ _)

/-- The function `cds_list_add_rcu` of a new node to a well-formed list gives the well-formed
list with the node in front. -/
theorem IsList.add_rcu {H : Node → cds_list_head} {h : Node} {xs : List Node}
    (hl : IsList H h xs) {newp : Node} (hnew : newp ∉ h :: xs) :
    IsList (cds_list_add_rcu H newp h) h (newp :: xs) := by
  obtain ⟨h1, h2, h3, h4⟩ := hl
  have hne : h ≠ newp := fun h' => hnew (h' ▸ List.mem_cons_self _ _)
  have hnx : newp ∉ xs := fun h' => hnew (List.mem_cons_of_mem _ h')
  have hv : (H h).next = (h :: xs.reverse).getLast (List.cons_ne_nil h xs.reverse) := by
    rw [getLast_cons_eq_head_reverse]
    simp only [List.reverse_reverse]
    exact Path.first h1
  have hread : (set_prev (set_next H newp (H h).next) newp h h).next = (H h).next := by
    unfold set_prev set_next
    simp [Function.update_noteq hne]
  refine ⟨?_, ?_, ?_, ?_⟩
  · have := Path.push_front h1 hnew h3
    unfold cds_list_add_rcu
    simp only [next_set_next, next_set_prev]
    exact this
  · have hn' : newp ∉ h :: xs.reverse := by
      intro h'
      rcases List.mem_cons.mp h' with h'' | h''
      · exact hne h''.symm
      · exact hnx (List.mem_reverse.mp h'')
    have hnd : (h :: xs.reverse).Nodup := by
      rw [List.nodup_cons]
      exact ⟨fun h' => h3 (List.mem_reverse.mp h'), List.nodup_reverse.mpr h4⟩
    have := Path.push_back (b := h) h2 hn' hnd
    rw [← hv] at this
    unfold cds_list_add_rcu
    simp only [prev_set_next, prev_set_prev, hread, List.reverse_cons]
    exact this
  · intro h'
    rcases List.mem_cons.mp h' with h'' | h''
    · exact hne h''
    · exact h3 h''
  · exact List.nodup_cons.mpr ⟨hnx, h4⟩

/-- The function `cds_list_add_tail` only writes to the new node, the head and the last node
before the head. -/
theorem cds_list_add_tail_frame (H : Node → cds_list_head) (newp head n : Node)
    (h1 : n ≠ newp) (h2 : n ≠ head) (h3 : n ≠ (H head).prev) :
    cds_list_add_tail H newp head n = H n := by
  unfold cds_list_add_tail set_next set_prev
  simp only [Function.update_noteq h1, Function.update_noteq h2, Function.update_noteq h3]

/-- The function `cds_list_add_tail` of a new node to a well-formed list only writes to the
new node and to nodes of the list. -/
theorem IsList.add_tail_frame {H : Node → cds_list_head} {h : Node} {xs : List Node}
    (hl : IsList H h xs) {newp : Node} (n : Node)
    (hn : n ∉ newp :: h :: xs) : cds_list_add_tail H newp h n = H n := by
  have hnb := hl.neighbours (List.mem_cons_self h xs)
  apply cds_list_add_tail_frame
  · intro h'; exact hn (h' ▸ List.mem_cons_self _ _)
  · intro h'; exact hn (h' ▸ List.mem_cons_of_mem _ (List.mem_cons_self _ _))
  · intro h'; exact hn (h' ▸ List.mem_cons_of_mem _ hnb.2)

/-- The function `cds_list_add_tail` of a new node to a well-formed list gives the well-formed
list with the node at the end. -/
theorem IsList.add_tail {H : Node → cds_list_head} {h : Node} {xs : List Node}
    (hl : IsList H h xs) {newp : Node} (hnew : newp ∉ h :: xs) :
    IsList (cds_list_add_tail H newp h) h (xs ++ [newp]) := by
  obtain ⟨h1, h2, h3, h4⟩ := hl
  have hne : h ≠ newp := fun h' => hnew (h' ▸ List.mem_cons_self _ _)
  have hnx : newp ∉ xs := fun h' => hnew (List.mem_cons_of_mem _ h')
  have hu : (H h).prev = (h :: xs).getLast (List.cons_ne_nil h xs) := by
    rw [getLast_cons_eq_head_reverse]
    exact Path.first h2
  have hun : (H h).prev ≠ newp := by
    rw [hu]
    intro h'
    exact hnew (h' ▸ List.getLast_mem _)
  have hread : (set_next (set_next H (H h).prev newp) newp h h).prev = (H h).prev := by
    have := congrFun (prev_set_next (set_next H (H h).prev newp) newp h) h
    simp only at this
    rw [this]
    have := congrFun (prev_set_next H (H h).prev newp) h
    simpa using this
  refine ⟨?_, ?_, ?_, ?_⟩
  · have hnd : (h :: xs).Nodup := List.nodup_cons.mpr ⟨h3, h4⟩
    have := Path.push_back (b := h) h1 hnew hnd
    rw [← hu, Function.update_comm hun.symm] at this
    unfold cds_list_add_tail
    simp only [next_set_next, next_set_prev]
    exact this
  · have hn' : newp ∉ h :: xs.reverse := by
      intro h'
      rcases List.mem_cons.mp h' with h'' | h''
      · exact hne h''.symm
      · exact hnx (List.mem_reverse.mp h'')
    have := Path.push_front h2 hn' (fun h' => h3 (List.mem_reverse.mp h'))
    unfold cds_list_add_tail
    simp only [prev_set_next, prev_set_prev, hread, List.reverse_append, List.reverse_cons,
      List.reverse_nil, List.nil_append, List.singleton_append]
    exact this
  · intro h'
    rcases List.mem_append.mp h' with h'' | h''
    · exact h3 h''
    · exact hne (List.mem_singleton.mp h'')
  · rw [List.nodup_append]
    refine ⟨h4, List.nodup_singleton _, ?_⟩
    intro a ha hb
    exact hnx (List.mem_singleton.mp hb ▸ ha)

/-- The initialiser `CDS_INIT_LIST_HEAD` makes the empty well-formed list. -/
theorem IsList.init (H : Node → cds_list_head) (h : Node) :
    IsList (CDS_INIT_LIST_HEAD H h) h [] := by
  unfold IsList CDS_INIT_LIST_HEAD
  simp [Path]

/-- A well-formed list is empty exactly when `cds_list_empty` says so. -/
theorem IsList.empty_iff {H : Node → cds_list_head} {h : Node} {xs : List Node}
    (hl : IsList H h xs) : cds_list_empty H h = true ↔ xs = [] := by
  unfold cds_list_empty
  cases xs with
  | nil =>
    have := hl.1
    unfold Path at this
    simp [this]
  | cons x xs =>
    have := hl.1
    unfold Path at this
    have hne : h ≠ x := fun h' => hl.2.2.1 (h' ▸ List.mem_cons_self _ _)
    simp [this.1, hne]

/-! ### Entry requests on states that satisfy the invariant -/

/-- Different entries have different `mle_list` members. -/
theorem mle_list_injective : Function.Injective Node.mle_list := by
  intro a b h
  cases h
  rfl

/-- Different entries have different `mle_profile_list` members. -/
theorem mle_profile_list_injective : Function.Injective Node.mle_profile_list := by
  intro a b h
  cases h
  rfl

/-- A node of the entry list is not a node of an attachment list. -/
theorem entry_node_not_attach (es a : List Nat) (p : Nat) (n : Node)
    (hn : n ∈ Node.mac_limit_list :: es.map Node.mle_list) :
    n ∉ Node.mlp_list p :: a.map Node.mle_profile_list := by
  intro h
  simp only [List.mem_cons, List.mem_map] at hn h
  rcases hn with rfl | ⟨e, _, rfl⟩ <;> rcases h with h | ⟨e', _, h⟩ <;> cases h

/-- A node of an attachment list is not a node of the entry list. -/
theorem attach_node_not_entry (es a : List Nat) (p : Nat) (n : Node)
    (hn : n ∈ Node.mlp_list p :: a.map Node.mle_profile_list) :
    n ∉ Node.mac_limit_list :: es.map Node.mle_list :=
  fun h => entry_node_not_attach es a p n h hn

/-- Nodes of the attachment lists of two profiles with no common entry are
different. -/
theorem attach_node_disjoint (a b : List Nat) (p q : Nat) (hpq : q ≠ p)
    (hab : ∀ e ∈ b, e ∉ a) (n : Node)
    (hn : n ∈ Node.mlp_list q :: b.map Node.mle_profile_list) :
    n ∉ Node.mlp_list p :: a.map Node.mle_profile_list := by
  intro h
  simp only [List.mem_cons, List.mem_map] at hn h
  rcases hn with rfl | ⟨e, he, rfl⟩
  · rcases h with h | ⟨e', _, h⟩
    · cases h; exact hpq rfl
    · cases h
  · rcases h with h | ⟨e', he', h⟩
    · cases h
    · cases h
      exact hab e he he'

/-- With distinct (interface, VLAN) pairs the search finds an entry of the list
exactly when the entry carries the pair. -/
theorem find_key_eq_some (ent : Nat → mac_limit_entry) (es : List Nat) (ifp vlan e : Nat)
    (huniq : ∀ e ∈ es, ∀ e' ∈ es, (ent e).mle_ifp = (ent e').mle_ifp →
      (ent e).mle_vlan = (ent e').mle_vlan → e = e')
    (he : e ∈ es) (hk : (ent e).mle_ifp = ifp ∧ (ent e).mle_vlan = vlan) :
    es.find? (fun e => decide ((ent e).mle_ifp = ifp ∧ (ent e).mle_vlan = vlan)) = some e := by
  cases hf : es.find? (fun e => decide ((ent e).mle_ifp = ifp ∧ (ent e).mle_vlan = vlan)) with
  | none =>
    have := List.find?_eq_none.mp hf e he
    simp [hk] at this
  | some e' =>
    have hm := List.mem_of_find?_eq_some hf
    have hp := List.find?_some hf
    simp only [decide_eq_true_eq] at hp
    rw [huniq e' hm e he (hp.1.trans hk.1.symm) (hp.2.trans hk.2.symm)]

/-- The function `mle_delete_entry` of an entry of the entry list keeps the invariant, with
the entry removed from the entry list and from every attachment list. -/
theorem delete_entry_inv (s : State) (es : List Nat) (att : Nat → List Nat) (e : Nat)
    (hinv : AttachInv s es att) (he : e ∈ es) :
    AttachInv (mle_delete_entry s e) (es.erase e) (fun p => (att p).erase e) := by
  obtain ⟨hpt, hel, hnd, halloc, huniq, hatt, hmem, hprof⟩ := hinv
  obtain ⟨p, hp, hep, heatt⟩ := hprof e he
  have hlist : s.mac_limit_list = true := by
    by_contra hc
    unfold EntryList at hel
    rw [if_neg hc] at hel
    rw [hel] at he
    cases he
  have hG : IsList s.heads Node.mac_limit_list (es.map Node.mle_list) := by
    unfold EntryList at hel
    rw [if_pos hlist] at hel
    exact hel
  have heG : Node.mle_list e ∈ es.map Node.mle_list := List.mem_map_of_mem _ he
  have heP : Node.mle_profile_list e ∈ (att p).map Node.mle_profile_list :=
    List.mem_map_of_mem _ heatt
  -- the first unlink only writes to nodes of the entry list
  have hP1 : ∀ q ∈ s.mac_limit_profile_tbl.getD [],
      IsList (cds_list_del s.heads (Node.mle_list e)) (Node.mlp_list q)
        ((att q).map Node.mle_profile_list) := by
    intro q hq
    apply (hatt q hq).congr_heads
    intro n hn
    exact hG.del_frame heG n (attach_node_not_entry es (att q) q n hn)
  have hG1 : IsList (cds_list_del s.heads (Node.mle_list e)) Node.mac_limit_list
      ((es.erase e).map Node.mle_list) := by
    rw [List.map_erase mle_list_injective]
    exact hG.del heG
  -- the second unlink only writes to nodes of the attachment list of `p`
  have hG2 : IsList (cds_list_del (cds_list_del s.heads (Node.mle_list e))
      (Node.mle_profile_list e)) Node.mac_limit_list ((es.erase e).map Node.mle_list) := by
    apply hG1.congr_heads
    intro n hn
    exact (hP1 p hp).del_frame heP n (entry_node_not_attach (es.erase e) (att p) p n hn)
  have hother : ∀ q ∈ s.mac_limit_profile_tbl.getD [], q ≠ p → e ∉ att q := by
    intro q hq hqp hin
    have := (hmem q hq e hin).2
    rw [hep] at this
    exact hqp (Option.some.inj this).symm
  refine ⟨hpt, ?_, hnd.erase e, ?_, ?_, ?_, ?_, ?_⟩
  · unfold EntryList
    rw [if_pos (show (mle_delete_entry s e).mac_limit_list = true from hlist)]
    exact hG2
  · intro e' he'
    exact halloc e' (List.mem_of_mem_erase he')
  · intro e1 h1 e2 h2
    exact huniq e1 (List.mem_of_mem_erase h1) e2 (List.mem_of_mem_erase h2)
  · intro q hq
    show IsList (cds_list_del (cds_list_del s.heads (Node.mle_list e))
      (Node.mle_profile_list e)) (Node.mlp_list q) (((att q).erase e).map Node.mle_profile_list)
    by_cases hqp : q = p
    · subst hqp
      rw [List.map_erase mle_profile_list_injective]
      exact (hP1 q hq).del heP
    · rw [List.erase_of_not_mem (hother q hq hqp)]
      apply (hP1 q hq).congr_heads
      intro n hn
      apply (hP1 p hp).del_frame heP n
      apply attach_node_disjoint (att p) (att q) p q hqp _ n hn
      intro e' he' hin
      have h1 := (hmem q hq e' he').2
      have h2 := (hmem p hp e' hin).2
      rw [h1] at h2
      exact hqp (Option.some.inj h2)
  · intro q hq e' he'
    have hin : e' ∈ att q := List.mem_of_mem_erase he'
    have hne : e' ≠ e := by
      have hndq : (att q).Nodup := List.Nodup.of_map _ (hatt q hq).2.2.2
      exact fun h => (List.Nodup.not_mem_erase hndq) (h ▸ he')
    exact ⟨(List.mem_erase_of_ne hne).mpr (hmem q hq e' hin).1, (hmem q hq e' hin).2⟩
  · intro e' he'
    have hin : e' ∈ es := List.mem_of_mem_erase he'
    have hne : e' ≠ e := fun h => (List.Nodup.not_mem_erase hnd) (h ▸ he')
    obtain ⟨q, hq, h1, h2⟩ := hprof e' hin
    exact ⟨q, hq, h1, (List.mem_erase_of_ne hne).mpr h2⟩

/-- The function `mac_limit_set_intf_cfg` with action `DELETE` on a state that satisfies the
invariant: without an entry for the pair nothing changes; with an entry `e` for
the pair the result is `0`, the invariant holds again with `e` removed from the
entry list and from every attachment list, the entry is handed to `call_rcu`,
`mle_find_entry` returns `NULL` for the pair, and the profile table, the
profiles and the fields of all entries are as before. -/
theorem set_intf_cfg_DELETE_inv (dp_ifnet_byifname : String → Option Nat) (A : Alloc)
    (fuel : Nat) (s : State) (es : List Nat) (att : Nat → List Nat)
    (ifname : String) (ifp vlan : Nat) (pname : Option String)
    (hinv : AttachInv s es att) (hfuel : es.length < fuel)
    (hif : dp_ifnet_byifname ifname = some ifp) :
    ((∀ e ∈ es, ¬ ((s.entries e).mle_ifp = ifp ∧ (s.entries e).mle_vlan = vlan % 65536)) →
      mac_limit_set_intf_cfg dp_ifnet_byifname A fuel s ⟨Action.DELETE, ifname, vlan, pname⟩
        = some (0, s)) ∧
    (∀ e ∈ es, (s.entries e).mle_ifp = ifp ∧ (s.entries e).mle_vlan = vlan % 65536 →
      ∃ s', mac_limit_set_intf_cfg dp_ifnet_byifname A fuel s
          ⟨Action.DELETE, ifname, vlan, pname⟩ = some (0, s') ∧
        AttachInv s' (es.erase e) (fun p => (att p).erase e) ∧
        mle_find_entry fuel s' ifp (vlan % 65536) = some none ∧
        e ∈ s'.rcu_free_entries ∧
        s'.mac_limit_profile_tbl = s.mac_limit_profile_tbl ∧
        s'.profiles = s.profiles ∧ s'.entries = s.entries) := by
  obtain ⟨hpt, hel, hnd, halloc, huniq, hatt, hmem, hprof⟩ := hinv
  have hfind := find_entry_of_list s es fuel ifp (vlan % 65536) hel hfuel
  constructor
  · intro hno
    have : es.find? (fun e => decide ((s.entries e).mle_ifp = ifp ∧
        (s.entries e).mle_vlan = vlan % 65536)) = none := by
      apply List.find?_eq_none.mpr
      intro e he
      simpa using hno e he
    rw [this] at hfind
    unfold mac_limit_set_intf_cfg
    simp [hif, hfind]
  · intro e he hk
    have hfe := find_key_eq_some s.entries es ifp (vlan % 65536) e huniq he hk
    rw [hfe] at hfind
    refine ⟨mle_delete_entry s e, ?_, ?_, ?_, ?_, rfl, rfl, rfl⟩
    · unfold mac_limit_set_intf_cfg
      simp [hif, hfind]
    · exact delete_entry_inv s es att e ⟨hpt, hel, hnd, halloc, huniq, hatt, hmem, hprof⟩ he
    · have hinv' := delete_entry_inv s es att e ⟨hpt, hel, hnd, halloc, huniq, hatt, hmem, hprof⟩ he
      have hlen : (es.erase e).length < fuel := by
        have := List.length_erase_of_mem he
        omega
      rw [find_entry_of_list _ (es.erase e) fuel ifp (vlan % 65536) hinv'.2.1 hlen]
      congr 1
      apply List.find?_eq_none.mpr
      intro e' he' hk'
      simp only [decide_eq_true_eq] at hk'
      have hin : e' ∈ es := List.mem_of_mem_erase he'
      have : e' = e := huniq e' hin e he (hk'.1.trans hk.1.symm) (hk'.2.trans hk.2.symm)
      exact (List.Nodup.not_mem_erase hnd) (this ▸ he')
    · simp [mle_delete_entry]

/-- The second half of a `SET` request: setting `mle_profile` of the detached
entry `e` to the profile `P` of the table and linking it at the front of the
attachment list of `P` establishes the invariant. -/
theorem attach_inv (s : State) (es : List Nat) (att : Nat → List Nat) (e P : Nat)
    (hinv : DetachedInv s es att e) (he : e ∈ es)
    (hP : P ∈ s.mac_limit_profile_tbl.getD []) :
    AttachInv
      { s with
        entries := Function.update s.entries e { s.entries e with mle_profile := some P }
        heads := cds_list_add_rcu s.heads (Node.mle_profile_list e) (Node.mlp_list P) }
      es (fun p => if p = P then e :: att p else att p) := by
  obtain ⟨hpt, hel, hnd, halloc, huniq, hatt, hmem, hprof⟩ := hinv
  have hnew : Node.mle_profile_list e ∉ Node.mlp_list P :: (att P).map Node.mle_profile_list := by
    intro h
    simp only [List.mem_cons, List.mem_map] at h
    rcases h with h | ⟨e', he', h⟩
    · cases h
    · cases h
      exact (hmem P hP e he').2.1 rfl
  have hframe : ∀ n, n ∉ Node.mle_profile_list e :: Node.mlp_list P ::
      (att P).map Node.mle_profile_list →
      cds_list_add_rcu s.heads (Node.mle_profile_list e) (Node.mlp_list P) n = s.heads n :=
    fun n hn => (hatt P hP).add_rcu_frame hnew n hn
  have hifp : ∀ e', (Function.update s.entries e { s.entries e with mle_profile := some P } e').mle_ifp
      = (s.entries e').mle_ifp := by
    intro e'
    by_cases h : e' = e
    · subst h; simp
    · simp [Function.update_noteq h]
  have hvlan : ∀ e', (Function.update s.entries e { s.entries e with mle_profile := some P } e').mle_vlan
      = (s.entries e').mle_vlan := by
    intro e'
    by_cases h : e' = e
    · subst h; simp
    · simp [Function.update_noteq h]
  refine ⟨hpt, ?_, hnd, halloc, ?_, ?_, ?_, ?_⟩
  · unfold EntryList at hel ⊢
    by_cases hl : s.mac_limit_list = true
    · rw [if_pos hl] at hel
      rw [if_pos (show _ = true from hl)]
      apply hel.congr_heads
      intro n hn
      apply hframe
      intro h
      rcases List.mem_cons.mp h with h' | h'
      · rw [h'] at hn
        simp at hn
      · exact entry_node_not_attach es (att P) P n hn h'
    · rw [if_neg hl] at hel
      rw [hel] at he
      cases he
  · intro e1 h1 e2 h2
    simp only [hifp, hvlan]
    exact huniq e1 h1 e2 h2
  · intro q hq
    show IsList (cds_list_add_rcu s.heads (Node.mle_profile_list e) (Node.mlp_list P))
      (Node.mlp_list q) ((if q = P then e :: att q else att q).map Node.mle_profile_list)
    by_cases hqp : q = P
    · subst hqp
      rw [if_pos rfl]
      exact (hatt q hq).add_rcu hnew
    · rw [if_neg hqp]
      apply (hatt q hq).congr_heads
      intro n hn
      apply hframe
      intro h
      rcases List.mem_cons.mp h with h' | h'
      · rw [h'] at hn
        simp only [List.mem_cons, List.mem_map] at hn
        rcases hn with hn | ⟨e', he', hn⟩
        · cases hn
        · cases hn
          exact (hmem q hq e he').2.1 rfl
      · refine attach_node_disjoint (att P) (att q) P q hqp ?_ n hn h'
        intro e' he' hin
        have h1 := (hmem q hq e' he').2.2
        have h2 := (hmem P hP e' hin).2.2
        rw [h1] at h2
        exact hqp (Option.some.inj h2)
  · intro q hq e' he'
    show e' ∈ es ∧ (Function.update s.entries e { s.entries e with mle_profile := some P } e').mle_profile
      = some q
    by_cases hqp : q = P
    · subst hqp
      simp only [if_true] at he'
      rcases List.mem_cons.mp he' with h | h
      · subst h
        exact ⟨he, by simp⟩
      · obtain ⟨h1, h2, h3⟩ := hmem q hq e' h
        exact ⟨h1, by rw [Function.update_noteq h2]; exact h3⟩
    · simp only [hqp, if_false] at he'
      obtain ⟨h1, h2, h3⟩ := hmem q hq e' he'
      exact ⟨h1, by rw [Function.update_noteq h2]; exact h3⟩
  · intro e' he'
    show ∃ p ∈ s.mac_limit_profile_tbl.getD [],
      (Function.update s.entries e { s.entries e with mle_profile := some P } e').mle_profile
        = some p ∧ e' ∈ (if p = P then e :: att p else att p)
    by_cases hee : e' = e
    · subst hee
      exact ⟨P, hP, by simp, by simp⟩
    · obtain ⟨p, hp, h1, h2⟩ := hprof e' he' hee
      refine ⟨p, hp, by rw [Function.update_noteq hee]; exact h1, ?_⟩
      by_cases hpP : p = P
      · rw [if_pos hpP]; exact List.mem_cons_of_mem _ h2
      · rw [if_neg hpP]; exact h2

/-- The first half of a `SET` request for an entry of another profile:
unlinking the entry `e` from its attachment list and clearing its
`mle_profile` gives the detached invariant, with `e` removed from every
attachment list. -/
theorem detach_inv (s : State) (es : List Nat) (att : Nat → List Nat) (e : Nat)
    (hinv : AttachInv s es att) (he : e ∈ es) :
    DetachedInv
      { s with
        heads := cds_list_del s.heads (Node.mle_profile_list e)
        entries := Function.update s.entries e { s.entries e with mle_profile := none } }
      es (fun p => (att p).erase e) e := by
  obtain ⟨hpt, hel, hnd, halloc, huniq, hatt, hmem, hprof⟩ := hinv
  obtain ⟨p, hp, hep, heatt⟩ := hprof e he
  have heP : Node.mle_profile_list e ∈ (att p).map Node.mle_profile_list :=
    List.mem_map_of_mem _ heatt
  have hifp : ∀ e', (Function.update s.entries e { s.entries e with mle_profile := none } e').mle_ifp
      = (s.entries e').mle_ifp := by
    intro e'
    by_cases h : e' = e
    · subst h; simp
    · simp [Function.update_noteq h]
  have hvlan : ∀ e', (Function.update s.entries e { s.entries e with mle_profile := none } e').mle_vlan
      = (s.entries e').mle_vlan := by
    intro e'
    by_cases h : e' = e
    · subst h; simp
    · simp [Function.update_noteq h]
  have hother : ∀ q ∈ s.mac_limit_profile_tbl.getD [], q ≠ p → e ∉ att q := by
    intro q hq hqp hin
    have := (hmem q hq e hin).2
    rw [hep] at this
    exact hqp (Option.some.inj this).symm
  refine ⟨hpt, ?_, hnd, halloc, ?_, ?_, ?_, ?_⟩
  · unfold EntryList at hel ⊢
    by_cases hl : s.mac_limit_list = true
    · rw [if_pos hl] at hel
      rw [if_pos (show _ = true from hl)]
      apply hel.congr_heads
      intro n hn
      exact (hatt p hp).del_frame heP n (entry_node_not_attach es (att p) p n hn)
    · rw [if_neg hl] at hel
      rw [hel] at he
      cases he
  · intro e1 h1 e2 h2
    simp only [hifp, hvlan]
    exact huniq e1 h1 e2 h2
  · intro q hq
    show IsList (cds_list_del s.heads (Node.mle_profile_list e)) (Node.mlp_list q)
      (((att q).erase e).map Node.mle_profile_list)
    by_cases hqp : q = p
    · subst hqp
      rw [List.map_erase mle_profile_list_injective]
      exact (hatt q hq).del heP
    · rw [List.erase_of_not_mem (hother q hq hqp)]
      apply (hatt q hq).congr_heads
      intro n hn
      apply (hatt p hp).del_frame heP n
      apply attach_node_disjoint (att p) (att q) p q hqp _ n hn
      intro e' he' hin
      have h1 := (hmem q hq e' he').2
      have h2 := (hmem p hp e' hin).2
      rw [h1] at h2
      exact hqp (Option.some.inj h2)
  · intro q hq e' he'
    have hin : e' ∈ att q := List.mem_of_mem_erase he'
    have hne : e' ≠ e := by
      have hndq : (att q).Nodup := List.Nodup.of_map _ (hatt q hq).2.2.2
      exact fun h => (List.Nodup.not_mem_erase hndq) (h ▸ he')
    refine ⟨(hmem q hq e' hin).1, hne, ?_⟩
    show (Function.update s.entries e { s.entries e with mle_profile := none } e').mle_profile = some q
    rw [Function.update_noteq hne]
    exact (hmem q hq e' hin).2
  · intro e' he' hne
    obtain ⟨q, hq, h1, h2⟩ := hprof e' he'
    refine ⟨q, hq, ?_, (List.mem_erase_of_ne hne).mpr h2⟩
    show (Function.update s.entries e { s.entries e with mle_profile := none } e').mle_profile = some q
    rw [Function.update_noteq hne]
    exact h1

/-- Allocating the list head when the list pointer is `NULL` keeps the
invariant. -/
theorem ensure_list_inv (s : State) (es : List Nat) (att : Nat → List Nat)
    (hinv : AttachInv s es att) :
    AttachInv
      (if s.mac_limit_list = false then
        { s with
          mac_limit_list := true
          heads := CDS_INIT_LIST_HEAD s.heads Node.mac_limit_list }
      else s) es att ∧
    (if s.mac_limit_list = false then
        { s with
          mac_limit_list := true
          heads := CDS_INIT_LIST_HEAD s.heads Node.mac_limit_list }
      else s).mac_limit_list = true := by
  by_cases hl : s.mac_limit_list = false
  · rw [if_pos hl]
    refine ⟨?_, rfl⟩
    obtain ⟨hpt, hel, hnd, halloc, huniq, hatt, hmem, hprof⟩ := hinv
    have hes : es = [] := by
      unfold EntryList at hel
      rw [if_neg (by simp [hl])] at hel
      exact hel
    subst hes
    refine ⟨hpt, ?_, hnd, halloc, huniq, ?_, hmem, hprof⟩
    · unfold EntryList
      rw [if_pos rfl]
      exact IsList.init s.heads Node.mac_limit_list
    · intro q hq
      apply (hatt q hq).congr_heads
      intro n hn
      have hne : n ≠ Node.mac_limit_list := by
        intro h
        exact attach_node_not_entry [] (att q) q n hn (h ▸ List.mem_cons_self _ _)
      show CDS_INIT_LIST_HEAD s.heads Node.mac_limit_list n = s.heads n
      unfold CDS_INIT_LIST_HEAD
      exact Function.update_noteq hne _ _
  · rw [if_neg hl]
    exact ⟨hinv, by simpa using hl⟩

/-- Allocating a zeroed entry for a pair that has none and linking it at the
tail of the entry list gives the detached invariant for the new entry. -/
theorem link_new_entry_inv (s : State) (es : List Nat) (att : Nat → List Nat) (ifp vlan : Nat)
    (hinv : AttachInv s es att) (hl : s.mac_limit_list = true)
    (hno : ∀ e ∈ es, ¬ ((s.entries e).mle_ifp = ifp ∧ (s.entries e).mle_vlan = vlan)) :
    DetachedInv
      { s with
        nentries := s.nentries + 1
        entries := Function.update s.entries s.nentries ⟨ifp, vlan, none⟩
        heads := cds_list_add_tail
          (Function.update
            (Function.update s.heads (Node.mle_list s.nentries) ⟨Node.null, Node.null⟩)
            (Node.mle_profile_list s.nentries) ⟨Node.null, Node.null⟩)
          (Node.mle_list s.nentries) Node.mac_limit_list }
      (es ++ [s.nentries]) att s.nentries := by
  obtain ⟨hpt, hel, hnd, halloc, huniq, hatt, hmem, hprof⟩ := hinv
  have hfresh : s.nentries ∉ es := fun h => absurd (halloc _ h) (lt_irrefl _)
  have hG : IsList s.heads Node.mac_limit_list (es.map Node.mle_list) := by
    unfold EntryList at hel
    rw [if_pos hl] at hel
    exact hel
  have hzero : ∀ n, n ≠ Node.mle_list s.nentries → n ≠ Node.mle_profile_list s.nentries →
      Function.update
        (Function.update s.heads (Node.mle_list s.nentries) ⟨Node.null, Node.null⟩)
        (Node.mle_profile_list s.nentries) ⟨Node.null, Node.null⟩ n = s.heads n := by
    intro n h1 h2
    rw [Function.update_noteq h2, Function.update_noteq h1]
  have hnewG : Node.mle_list s.nentries ∉ Node.mac_limit_list :: es.map Node.mle_list := by
    intro h
    simp only [List.mem_cons, List.mem_map] at h
    rcases h with h | ⟨e', he', h⟩
    · cases h
    · cases h
      exact hfresh he'
  have hGa : IsList (Function.update
        (Function.update s.heads (Node.mle_list s.nentries) ⟨Node.null, Node.null⟩)
        (Node.mle_profile_list s.nentries) ⟨Node.null, Node.null⟩)
      Node.mac_limit_list (es.map Node.mle_list) := by
    apply hG.congr_heads
    intro n hn
    apply hzero
    · intro h; exact hnewG (h ▸ hn)
    · intro h
      rw [h] at hn
      simp at hn
  have hent : ∀ e' ∈ es, Function.update s.entries s.nentries ⟨ifp, vlan, none⟩ e'
      = s.entries e' := by
    intro e' he'
    have : e' ≠ s.nentries := fun h => hfresh (h ▸ he')
    exact Function.update_noteq this _ _
  refine ⟨hpt, ?_, ?_, ?_, ?_, ?_, ?_, ?_⟩
  · unfold EntryList
    rw [if_pos (show _ = true from hl)]
    have := hGa.add_tail hnewG
    simpa using this
  · rw [List.nodup_append]
    refine ⟨hnd, List.nodup_singleton _, ?_⟩
    intro a ha hb
    exact hfresh (List.mem_singleton.mp hb ▸ ha)
  · intro e' he'
    show e' < s.nentries + 1
    rcases List.mem_append.mp he' with h | h
    · exact Nat.lt_succ_of_lt (halloc e' h)
    · rw [List.mem_singleton.mp h]; exact Nat.lt_succ_self _
  · intro e1 h1 e2 h2
    show (Function.update s.entries s.nentries ⟨ifp, vlan, none⟩ e1).mle_ifp
        = (Function.update s.entries s.nentries ⟨ifp, vlan, none⟩ e2).mle_ifp →
      (Function.update s.entries s.nentries ⟨ifp, vlan, none⟩ e1).mle_vlan
        = (Function.update s.entries s.nentries ⟨ifp, vlan, none⟩ e2).mle_vlan → e1 = e2
    rcases List.mem_append.mp h1 with h1 | h1 <;> rcases List.mem_append.mp h2 with h2 | h2
    · rw [hent e1 h1, hent e2 h2]
      exact huniq e1 h1 e2 h2
    · rw [List.mem_singleton.mp h2, hent e1 h1, Function.update_same]
      intro ha hb
      exact absurd ⟨ha, hb⟩ (hno e1 h1)
    · rw [List.mem_singleton.mp h1, hent e2 h2, Function.update_same]
      intro ha hb
      exact absurd ⟨ha.symm, hb.symm⟩ (hno e2 h2)
    · rw [List.mem_singleton.mp h1, List.mem_singleton.mp h2]
      exact fun _ _ => rfl
  · intro q hq
    have hQ := hatt q hq
    apply hQ.congr_heads
    intro n hn
    have hnG : n ∉ Node.mle_list s.nentries :: Node.mac_limit_list :: es.map Node.mle_list := by
      intro h
      rcases List.mem_cons.mp h with h' | h'
      · rw [h'] at hn
        simp at hn
      · exact attach_node_not_entry es (att q) q n hn h'
    show cds_list_add_tail _ (Node.mle_list s.nentries) Node.mac_limit_list n = s.heads n
    rw [hGa.add_tail_frame n hnG]
    apply hzero
    · intro h; exact hnG (h ▸ List.mem_cons_self _ _)
    · intro h
      rw [h] at hn
      simp only [List.mem_cons, List.mem_map] at hn
      rcases hn with hn | ⟨e', he', hn⟩
      · cases hn
      · cases hn
        exact hfresh (hmem q hq _ he').1
  · intro q hq e' he'
    obtain ⟨h1, h2⟩ := hmem q hq e' he'
    have hne : e' ≠ s.nentries := fun h => hfresh (h ▸ h1)
    refine ⟨List.mem_append_left _ h1, hne, ?_⟩
    show (Function.update s.entries s.nentries ⟨ifp, vlan, none⟩ e').mle_profile = some q
    rw [Function.update_noteq hne]
    exact h2
  · intro e' he' hne
    rcases List.mem_append.mp he' with h | h
    · obtain ⟨q, hq, h1, h2⟩ := hprof e' h
      refine ⟨q, hq, ?_, h2⟩
      show (Function.update s.entries s.nentries ⟨ifp, vlan, none⟩ e').mle_profile = some q
      rw [Function.update_noteq hne]
      exact h1
    · exact absurd (List.mem_singleton.mp h) hne

/-- The function `mac_limit_set_intf_cfg` with action `SET` for an existing profile `P` on a
state that satisfies the invariant, for a pair without an entry and for a
pair whose entry is attached to another profile.  When the
pair has no entry (and the allocations succeed), the result is `0` and the
invariant holds again with the new entry at the end of the entry list and at
the front of the attachment list of `P`.  When the pair has the entry `e`
attached to another profile, the result is `0` and the invariant holds again
with the same entry list and with `e` at the front of the attachment list of
`P` and removed from every other attachment list.  In both cases the entry
carries the pair and `mle_profile = P`, every other entry has its fields as
before, and the profile table and the profiles are as before. -/
theorem set_intf_cfg_SET_inv (dp_ifnet_byifname : String → Option Nat) (A : Alloc)
    (fuel : Nat) (s : State) (es : List Nat) (att : Nat → List Nat)
    (ifname : String) (ifp vlan : Nat) (pname : String) (P : Nat)
    (hinv : AttachInv s es att) (hfuel : es.length < fuel)
    (hif : dp_ifnet_byifname ifname = some ifp)
    (hP : mac_limit_find_profile s pname = some P)
    (hA1 : A.calloc_list = true) (hA2 : A.calloc_entry = true) :
    ((∀ e ∈ es, ¬ ((s.entries e).mle_ifp = ifp ∧ (s.entries e).mle_vlan = vlan % 65536)) →
      ∃ s', mac_limit_set_intf_cfg dp_ifnet_byifname A fuel s
          ⟨Action.SET, ifname, vlan, some pname⟩ = some (0, s') ∧
        AttachInv s' (es ++ [s.nentries])
          (fun p => if p = P then s.nentries :: att p else att p) ∧
        s'.entries s.nentries = ⟨ifp, vlan % 65536, some P⟩ ∧
        (∀ e', e' ≠ s.nentries → s'.entries e' = s.entries e') ∧
        s'.mac_limit_profile_tbl = s.mac_limit_profile_tbl ∧ s'.profiles = s.profiles) ∧
    (∀ e ∈ es, (s.entries e).mle_ifp = ifp ∧ (s.entries e).mle_vlan = vlan % 65536 →
      ∀ Q, (s.entries e).mle_profile = some Q → Q ≠ P →
      ∃ s', mac_limit_set_intf_cfg dp_ifnet_byifname A fuel s
          ⟨Action.SET, ifname, vlan, some pname⟩ = some (0, s') ∧
        AttachInv s' es (fun p => if p = P then e :: att p else (att p).erase e) ∧
        s'.entries e = ⟨ifp, vlan % 65536, some P⟩ ∧
        (∀ e', e' ≠ e → s'.entries e' = s.entries e') ∧
        s'.mac_limit_profile_tbl = s.mac_limit_profile_tbl ∧ s'.profiles = s.profiles) := by
  have hPin := (find_profile_some s pname P hP).1
  have hfind := find_entry_of_list s es fuel ifp (vlan % 65536) hinv.2.1 hfuel
  constructor
  · intro hno
    have hnone : es.find? (fun e => decide ((s.entries e).mle_ifp = ifp ∧
        (s.entries e).mle_vlan = vlan % 65536)) = none := by
      apply List.find?_eq_none.mpr
      intro e he
      simpa using hno e he
    rw [hnone] at hfind
    obtain ⟨hinv1, hl1⟩ := ensure_list_inv s es att hinv
    have hno1 : ∀ e ∈ es, ¬ (((if s.mac_limit_list = false then
        { s with
          mac_limit_list := true
          heads := CDS_INIT_LIST_HEAD s.heads Node.mac_limit_list }
        else s).entries e).mle_ifp = ifp ∧ ((if s.mac_limit_list = false then
        { s with
          mac_limit_list := true
          heads := CDS_INIT_LIST_HEAD s.heads Node.mac_limit_list }
        else s).entries e).mle_vlan = vlan % 65536) := by
      intro e he
      split_ifs
      · exact hno e he
      · exact hno e he
    have hdet := link_new_entry_inv _ es att ifp (vlan % 65536) hinv1 hl1 hno1
    have hn1 : (if s.mac_limit_list = false then
        { s with
          mac_limit_list := true
          heads := CDS_INIT_LIST_HEAD s.heads Node.mac_limit_list }
        else s).nentries = s.nentries := by
      split_ifs <;> rfl
    have ht1 : (if s.mac_limit_list = false then
        { s with
          mac_limit_list := true
          heads := CDS_INIT_LIST_HEAD s.heads Node.mac_limit_list }
        else s).mac_limit_profile_tbl = s.mac_limit_profile_tbl := by
      split_ifs <;> rfl
    have hp1 : (if s.mac_limit_list = false then
        { s with
          mac_limit_list := true
          heads := CDS_INIT_LIST_HEAD s.heads Node.mac_limit_list }
        else s).profiles = s.profiles := by
      split_ifs <;> rfl
    have he1 : (if s.mac_limit_list = false then
        { s with
          mac_limit_list := true
          heads := CDS_INIT_LIST_HEAD s.heads Node.mac_limit_list }
        else s).entries = s.entries := by
      split_ifs <;> rfl
    rw [hn1] at hdet
    have hmemnew : s.nentries ∈ es ++ [s.nentries] := by simp
    have hPin' : P ∈ Option.getD (State.mac_limit_profile_tbl
        { (if s.mac_limit_list = false then
            { s with
              mac_limit_list := true
              heads := CDS_INIT_LIST_HEAD s.heads Node.mac_limit_list }
          else s) with
          nentries := s.nentries + 1
          entries := Function.update (if s.mac_limit_list = false then
            { s with
              mac_limit_list := true
              heads := CDS_INIT_LIST_HEAD s.heads Node.mac_limit_list }
            else s).entries s.nentries ⟨ifp, vlan % 65536, none⟩
          heads := cds_list_add_tail
            (Function.update
              (Function.update (if s.mac_limit_list = false then
                { s with
                  mac_limit_list := true
                  heads := CDS_INIT_LIST_HEAD s.heads Node.mac_limit_list }
                else s).heads (Node.mle_list s.nentries) ⟨Node.null, Node.null⟩)
              (Node.mle_profile_list s.nentries) ⟨Node.null, Node.null⟩)
            (Node.mle_list s.nentries) Node.mac_limit_list }) [] := by
      show P ∈ Option.getD (if s.mac_limit_list = false then
            { s with
              mac_limit_list := true
              heads := CDS_INIT_LIST_HEAD s.heads Node.mac_limit_list }
          else s).mac_limit_profile_tbl []
      rw [ht1]
      exact hPin
    have hatt := attach_inv _ (es ++ [s.nentries]) att s.nentries P hdet hmemnew hPin'
    refine ⟨_, ?_, hatt, ?_, ?_, ?_, ?_⟩
    · unfold mac_limit_set_intf_cfg mle_add_entry
      simp only [hif, hfind, hP, hA1, hA2, hn1]
      simp
    · simp [he1]
    · intro e' hne
      simp [Function.update_noteq hne, he1]
    · exact ht1
    · exact hp1
  · intro e he hk Q hQ hQP
    have hfe := find_key_eq_some s.entries es ifp (vlan % 65536) e hinv.2.2.2.2.1 he hk
    rw [hfe] at hfind
    have hne : (s.entries e).mle_profile ≠ some P := by
      rw [hQ]
      exact fun h => hQP (Option.some.inj h)
    have heP : e ∉ att P := by
      intro hin
      exact hne (hinv.2.2.2.2.2.2.1 P hPin e hin).2
    have hdet := detach_inv s es att e hinv he
    have hatt := attach_inv _ es (fun p => (att p).erase e) e P hdet he hPin
    have hfun : (fun p => if p = P then e :: (fun p => (att p).erase e) p
        else (fun p => (att p).erase e) p)
        = (fun p => if p = P then e :: att p else (att p).erase e) := by
      funext p
      by_cases hp : p = P
      · subst hp
        simp [List.erase_of_not_mem heP]
      · simp [hp]
    rw [hfun] at hatt
    refine ⟨_, ?_, hatt, ?_, ?_, rfl, rfl⟩
    · unfold mac_limit_set_intf_cfg
      simp only [hif, hfind, hP]
      simp [hne]
    · simp [hk.1, hk.2]
    · intro e' hne'
      simp [Function.update_noteq hne']

/-! ### The profile-table invariant holds in every reachable state -/

/-- The profile-table invariant only reads the table, the names and the
allocation count. -/
theorem profileTableInv_congr (s s' : State)
    (htbl : s'.mac_limit_profile_tbl.getD [] = s.mac_limit_profile_tbl.getD [])
    (hname : ∀ p ∈ s.mac_limit_profile_tbl.getD [],
      (s'.profiles p).mlp_name = (s.profiles p).mlp_name)
    (hn : s'.nprofiles = s.nprofiles) (h : ProfileTableInv s) : ProfileTableInv s' := by
  unfold ProfileTableInv at h ⊢
  rw [htbl, hn]
  refine ⟨h.1, ?_⟩
  have : List.map (fun p => (s'.profiles p).mlp_name) (s.mac_limit_profile_tbl.getD [])
      = List.map (fun p => (s.profiles p).mlp_name) (s.mac_limit_profile_tbl.getD []) :=
    List.map_congr_left hname
  rw [this]
  exact h.2

/-- Setting a limit keeps the profile-table invariant. -/
theorem set_limit_inv (s : State) (p limit : Nat) (h : ProfileTableInv s) :
    ProfileTableInv (mac_limit_profile_set_limit s p limit) := by
  refine profileTableInv_congr s (mac_limit_profile_set_limit s p limit) rfl ?_ rfl h
  intro q _
  unfold mac_limit_profile_set_limit
  by_cases hq : q = p
  · subst hq; simp
  · simp [Function.update_noteq hq]

/-- Deleting a profile keeps the profile-table invariant. -/
theorem delete_profile_inv (s : State) (p : Nat) (h : ProfileTableInv s) :
    ProfileTableInv (mac_limit_delete_profile s p) := by
  unfold ProfileTableInv at h ⊢
  have htbl : (mac_limit_delete_profile s p).mac_limit_profile_tbl.getD []
      = (s.mac_limit_profile_tbl.getD []).filter (· ≠ p) := by
    unfold mac_limit_delete_profile
    cases s.mac_limit_profile_tbl <;> simp
  rw [htbl]
  refine ⟨fun q hq => h.1 q (List.mem_filter.mp hq).1, ?_⟩
  exact (List.filter_sublist _).map _ |>.nodup h.2

/-- The function `mac_limit_add_profile` keeps the profile-table invariant. -/
theorem add_profile_inv (A : Alloc) (s : State) (name : String) (h : ProfileTableInv s) :
    ProfileTableInv (mac_limit_add_profile A s name).2 := by
  have hsame : ProfileTableInv
      { s with mac_limit_profile_tbl := some (s.mac_limit_profile_tbl.getD []) } :=
    profileTableInv_congr s _ rfl (fun _ _ => rfl) rfl h
  unfold mac_limit_add_profile
  split_ifs
  · exact h
  · exact hsame
  · exact hsame
  · simp only
    split
    · exact hsame
    · rename_i hnone
      have hnone' : ∀ q ∈ s.mac_limit_profile_tbl.getD [], (s.profiles q).mlp_name ≠ name := by
        intro q hq hn
        have := List.find?_eq_none.mp hnone q hq
        simp [mac_limit_profile_match_fn, hn] at this
      have hfresh : s.nprofiles ∉ s.mac_limit_profile_tbl.getD [] :=
        fun hm => absurd (h.1 _ hm) (lt_irrefl _)
      unfold ProfileTableInv
      simp only [Option.getD_some]
      constructor
      · intro q hq
        rcases List.mem_append.mp hq with hq | hq
        · exact Nat.lt_succ_of_lt (h.1 q hq)
        · rw [List.mem_singleton.mp hq]; exact Nat.lt_succ_self _
      · rw [List.map_append, List.nodup_append]
        have hmap : List.map (fun p => (Function.update s.profiles s.nprofiles ⟨name, 0⟩ p).mlp_name)
            (s.mac_limit_profile_tbl.getD [])
            = List.map (fun p => (s.profiles p).mlp_name) (s.mac_limit_profile_tbl.getD []) := by
          apply List.map_congr_left
          intro q hq
          have : q ≠ s.nprofiles := fun hh => hfresh (hh ▸ hq)
          simp [Function.update_noteq this]
        rw [hmap]
        refine ⟨h.2, by simp, ?_⟩
        intro a ha hb
        simp only [List.map_cons, List.map_nil, Function.update_same, List.mem_singleton] at hb
        obtain ⟨q, hq, rfl⟩ := List.mem_map.mp ha
        exact hnone' q hq hb

/-- The function `mac_limit_set_profile` keeps the profile-table invariant. -/
theorem set_profile_inv (A : Alloc) (s : State) (cfg : MacLimitProfileConfig)
    (h : ProfileTableInv s) : ProfileTableInv (mac_limit_set_profile A s cfg).2 := by
  obtain ⟨action, profile, limit⟩ := cfg
  cases profile with
  | none =>
    unfold mac_limit_set_profile
    exact h
  | some name =>
    cases hf : mac_limit_find_profile s name with
    | some p =>
      cases action with
      | SET =>
        rw [set_profile_SET_present A s name limit p hf]
        exact set_limit_inv s p limit h
      | DELETE =>
        rw [set_profile_DELETE_present A s name limit p hf]
        split_ifs
        · exact delete_profile_inv _ p (set_limit_inv s p 0 h)
        · exact set_limit_inv s p 0 h
    | none =>
      cases action with
      | DELETE =>
        unfold mac_limit_set_profile
        simp only [hf]
        exact h
      | SET =>
        have hadd := add_profile_inv A s name h
        unfold mac_limit_set_profile
        simp only [hf, decide_True, if_true, Bool.not_true, Bool.false_eq_true, if_false]
        cases hae : mac_limit_add_profile A s name with
        | mk o s1 =>
          rw [hae] at hadd
          cases o with
          | none => exact hadd
          | some p => exact set_limit_inv s1 p limit hadd

/-- The function `mac_limit_set_intf_cfg` changes neither the profile table nor
the names and the number of the profiles. -/
theorem set_intf_cfg_profiles (dp_ifnet_byifname : String → Option Nat) (A : Alloc)
    (fuel : Nat) (s : State) (cfg : MacLimitIfVLANConfig) (r : Int × State)
    (hr : mac_limit_set_intf_cfg dp_ifnet_byifname A fuel s cfg = some r) :
    r.2.mac_limit_profile_tbl = s.mac_limit_profile_tbl ∧ r.2.profiles = s.profiles ∧
    r.2.nprofiles = s.nprofiles := by
  have hadd : (mle_add_entry A s (Option.getD (dp_ifnet_byifname cfg.ifname) 0)
      (cfg.vlan % 65536)).2.mac_limit_profile_tbl = s.mac_limit_profile_tbl ∧
      (mle_add_entry A s (Option.getD (dp_ifnet_byifname cfg.ifname) 0)
        (cfg.vlan % 65536)).2.profiles = s.profiles ∧
      (mle_add_entry A s (Option.getD (dp_ifnet_byifname cfg.ifname) 0)
        (cfg.vlan % 65536)).2.nprofiles = s.nprofiles := by
    unfold mle_add_entry
    split_ifs <;> exact ⟨rfl, rfl, rfl⟩
  unfold mac_limit_set_intf_cfg at hr
  cases hi : dp_ifnet_byifname cfg.ifname with
  | none =>
    simp only [hi, Option.some.injEq] at hr
    subst hr
    exact ⟨rfl, rfl, rfl⟩
  | some ifp =>
    rw [hi] at hadd
    simp only [hi] at hr
    cases hfe : mle_find_entry fuel s ifp (cfg.vlan % 65536) with
    | none => simp [hfe] at hr
    | some entry =>
      simp only [hfe] at hr
      by_cases hset : cfg.action = Action.SET
      · simp only [hset, decide_True, if_true] at hr
        cases hpn : cfg.profile with
        | none =>
          simp [hpn] at hr
          rw [← hr.2]
          exact ⟨rfl, rfl, rfl⟩
        | some pname =>
          simp only [hpn] at hr
          cases hfp : mac_limit_find_profile s pname with
          | none =>
            simp only [hfp, Option.some.injEq] at hr
            subst hr
            exact ⟨rfl, rfl, rfl⟩
          | some profile =>
            simp only [hfp] at hr
            cases entry with
            | some e =>
              dsimp only at hr
              by_cases hne : (s.entries e).mle_profile ≠ some profile
              · rw [if_pos hne] at hr
                simp only [Option.some.injEq] at hr
                subst hr
                exact ⟨rfl, rfl, rfl⟩
              · rw [if_neg hne] at hr
                simp only [Option.some.injEq] at hr
                subst hr
                exact ⟨rfl, rfl, rfl⟩
            | none =>
              simp only [Option.getD_some] at hadd
              simp only at hr
              cases hae : mle_add_entry A s ifp (cfg.vlan % 65536) with
              | mk o s1 =>
                rw [hae] at hr hadd
                cases o with
                | none =>
                  simp only [Option.some.injEq] at hr
                  subst hr
                  exact hadd
                | some e =>
                  simp only [Option.some.injEq] at hr
                  subst hr
                  exact hadd
      · simp only [hset, decide_False] at hr
        cases entry with
        | none =>
          simp only [Bool.false_eq_true, if_false, Option.some.injEq] at hr
          subst hr
          exact ⟨rfl, rfl, rfl⟩
        | some e =>
          simp only [Bool.false_eq_true, if_false, Option.some.injEq] at hr
          subst hr
          exact ⟨rfl, rfl, rfl⟩

/-- Every request keeps the profile-table invariant. -/
theorem cmd_profileTableInv (dp_ifnet_byifname : String → Option Nat) (A : Alloc)
    (fuel : Nat) (s : State) (msg : Option MacLimitConfig) (r : Int × State)
    (hr : cmd_mac_limit_cfg dp_ifnet_byifname A fuel s msg = some r)
    (h : ProfileTableInv s) : ProfileTableInv r.2 := by
  unfold cmd_mac_limit_cfg at hr
  cases msg with
  | none =>
    simp only [Option.some.injEq] at hr
    subst hr
    exact h
  | some m =>
    cases m with
    | profile cfg =>
      simp only [Option.some.injEq] at hr
      subst hr
      exact set_profile_inv A s cfg h
    | ifvlan cfg =>
      obtain ⟨h1, h2, h3⟩ := set_intf_cfg_profiles dp_ifnet_byifname A fuel s cfg r hr
      exact profileTableInv_congr s r.2 (by rw [h1]) (fun p _ => by rw [h2]) h3 h
    | unhandled =>
      simp only [Option.some.injEq] at hr
      subst hr
      exact h

/-- The profile-table invariant holds in every state reached from start-up by a
sequence of requests. -/
theorem run_requests_profileTableInv (dp_ifnet_byifname : String → Option Nat) (fuel : Nat) :
    ∀ (msgs : List MacLimitConfig) (s : State) (rs : List Int) (s' : State),
      ProfileTableInv s → run_requests dp_ifnet_byifname fuel s msgs = some (rs, s') →
      ProfileTableInv s'
  | [], s, rs, s', h, hr => by
    simp only [run_requests, Option.some.injEq, Prod.mk.injEq] at hr
    rw [← hr.2]
    exact h
  | m :: ms, s, rs, s', h, hr => by
    unfold run_requests at hr
    cases hc : cmd_mac_limit_cfg dp_ifnet_byifname Alloc.ok fuel s (some m) with
    | none => simp [hc] at hr
    | some r1 =>
      obtain ⟨r, s1⟩ := r1
      simp only [hc] at hr
      have h1 := cmd_profileTableInv dp_ifnet_byifname Alloc.ok fuel s (some m) (r, s1) hc h
      cases hrun : run_requests dp_ifnet_byifname fuel s1 ms with
      | none => simp [hrun] at hr
      | some r2 =>
        obtain ⟨rs2, s2⟩ := r2
        simp only [hrun, Option.some.injEq, Prod.mk.injEq] at hr
        rw [← hr.2]
        exact run_requests_profileTableInv dp_ifnet_byifname fuel ms s1 rs2 s2 h1 hrun

/-- Under the invariant, the attachment list of a profile of the table is empty
exactly when no entry of the entry list has the profile as its `mle_profile`. -/
theorem attachInv_empty_iff (s : State) (es : List Nat) (att : Nat → List Nat) (p : Nat)
    (hinv : AttachInv s es att) (hp : p ∈ s.mac_limit_profile_tbl.getD []) :
    cds_list_empty s.heads (Node.mlp_list p) = true ↔
      ∀ e ∈ es, (s.entries e).mle_profile ≠ some p := by
  obtain ⟨_, _, _, _, _, hatt, hmem, hprof⟩ := hinv
  rw [(hatt p hp).empty_iff, List.map_eq_nil_iff]
  constructor
  · intro hnil e he hep
    obtain ⟨q, _, h1, h2⟩ := hprof e he
    rw [hep] at h1
    cases h1
    rw [hnil] at h2
    cases h2
  · intro hno
    cases hl : att p with
    | nil => rfl
    | cons e l =>
      exfalso
      have hin : e ∈ att p := by rw [hl]; exact List.mem_cons_self _ _
      exact hno e (hmem p hp e hin).1 (hmem p hp e hin).2

/-! ### The invariant on concrete states, and the requests that break it -/

/-- The invariant holds at start-up. -/
theorem attachInv_init : AttachInv State.init [] (fun _ => []) := by decide

/-- The invariant holds in the example state. -/
theorem attachInv_attached :
    AttachInv State.attached [0] (fun p => if p = 0 then [0] else []) := by decide

/-- The example state is the state after the three requests that set up the
profiles `"q"` and `"p"` and attach the pair `("dp0p1", 10)` to `"q"`: the
requests return `0` and every field of the two profiles, of the entry and of
their list heads is the one of the example state. -/
theorem attached_reached :
    (run_requests example_ifnet 4 State.init
      [ .profile ⟨.SET, some "q", 5⟩, .profile ⟨.SET, some "p", 7⟩,
        .ifvlan ⟨.SET, "dp0p1", 10, some "q"⟩ ]).map
      (fun r => (r.1, r.2.mac_limit_profile_tbl, r.2.mac_limit_list, r.2.nprofiles,
        r.2.nentries, r.2.profiles 0, r.2.profiles 1, r.2.entries 0,
        r.2.heads Node.mac_limit_list, r.2.heads (Node.mle_list 0),
        r.2.heads (Node.mlp_list 0), r.2.heads (Node.mlp_list 1),
        r.2.heads (Node.mle_profile_list 0))) =
    some ([0, 0, 0], State.attached.mac_limit_profile_tbl, State.attached.mac_limit_list,
      State.attached.nprofiles, State.attached.nentries, State.attached.profiles 0,
      State.attached.profiles 1, State.attached.entries 0,
      State.attached.heads Node.mac_limit_list, State.attached.heads (Node.mle_list 0),
      State.attached.heads (Node.mlp_list 0), State.attached.heads (Node.mlp_list 1),
      State.attached.heads (Node.mle_profile_list 0)) := by
  rfl

/-- The theorem `set_intf_cfg_SET_inv` in the example state: moving the pair from `"q"` to
`"p"`. -/
theorem set_intf_cfg_SET_inv_witness :
    ∃ s', mac_limit_set_intf_cfg example_ifnet Alloc.ok 2 State.attached
        ⟨Action.SET, "dp0p1", 10, some "p"⟩ = some (0, s') ∧
      AttachInv s' [0] (fun p => if p = 1 then [0] else []) := by
  obtain ⟨s', h1, h2, _⟩ := (set_intf_cfg_SET_inv example_ifnet Alloc.ok 2 State.attached [0]
    (fun p => if p = 0 then [0] else []) "dp0p1" 100 10 "p" 1 attachInv_attached
    (by decide) (by decide) (by decide) rfl rfl).2 0 (by decide) (by decide) 0 (by decide)
    (by decide)
  refine ⟨s', h1, ?_⟩
  have hfun : (fun p => if p = 1 then 0 :: (fun p => if p = 0 then [0] else []) p
      else ((fun p => if p = 0 then [0] else []) p).erase 0)
      = (fun p => if p = 1 then [0] else []) := by
    funext p
    by_cases h1 : p = 1
    · subst h1; rfl
    · by_cases h0 : p = 0
      · subst h0; rfl
      · simp [h1, h0]
  rw [hfun] at h2
  exact h2

/-- The theorem `set_intf_cfg_DELETE_inv` in the example state: deleting the pair. -/
theorem set_intf_cfg_DELETE_inv_witness :
    ∃ s', mac_limit_set_intf_cfg example_ifnet Alloc.ok 2 State.attached
        ⟨Action.DELETE, "dp0p1", 10, none⟩ = some (0, s') ∧
      mle_find_entry 2 s' 100 10 = some none := by
  obtain ⟨s', h1, _, h3, _⟩ := (set_intf_cfg_DELETE_inv example_ifnet Alloc.ok 2 State.attached [0]
    (fun p => if p = 0 then [0] else []) "dp0p1" 100 10 none attachInv_attached
    (by decide) (by decide)).2 0 (by decide) (by decide)
  exact ⟨s', h1, h3⟩

/-- On a state that satisfies the invariant, a `SET` for an existing profile `P`
on a pair that has no entry, or whose entry is attached to another profile,
returns `0` (the allocations succeeding) and leaves a state that satisfies the
invariant again, in which exactly one entry `e` of the entry list carries the
pair, `e` has `mle_profile = P`, `e` is on the attachment list of `P` and on the
attachment list of no other profile of the table, and every other entry has
its fields, its place on the entry list and its attachment as before. -/
theorem set_intf_cfg_SET_wellformed (dp_ifnet_byifname : String → Option Nat) (A : Alloc)
    (fuel : Nat) (s : State) (es : List Nat) (att : Nat → List Nat)
    (ifname : String) (ifp vlan : Nat) (pname : String) (P : Nat)
    (hinv : AttachInv s es att) (hfuel : es.length < fuel)
    (hif : dp_ifnet_byifname ifname = some ifp)
    (hP : mac_limit_find_profile s pname = some P)
    (hA1 : A.calloc_list = true) (hA2 : A.calloc_entry = true)
    (hcase : (∀ e ∈ es, ¬ ((s.entries e).mle_ifp = ifp ∧
        (s.entries e).mle_vlan = vlan % 65536)) ∨
      (∃ e ∈ es, ((s.entries e).mle_ifp = ifp ∧ (s.entries e).mle_vlan = vlan % 65536) ∧
        (s.entries e).mle_profile ≠ some P)) :
    ∃ s' e es' att',
      mac_limit_set_intf_cfg dp_ifnet_byifname A fuel s
        ⟨Action.SET, ifname, vlan, some pname⟩ = some (0, s') ∧
      AttachInv s' es' att' ∧
      e ∈ es' ∧
      (∀ e' ∈ es', (s'.entries e').mle_ifp = ifp ∧ (s'.entries e').mle_vlan = vlan % 65536 →
        e' = e) ∧
      s'.entries e = ⟨ifp, vlan % 65536, some P⟩ ∧
      e ∈ att' P ∧
      (∀ q ∈ s'.mac_limit_profile_tbl.getD [], q ≠ P → e ∉ att' q) ∧
      (∀ e', e' ≠ e → s'.entries e' = s.entries e' ∧ (e' ∈ es' ↔ e' ∈ es) ∧
        ∀ q, (e' ∈ att' q ↔ e' ∈ att q)) ∧
      s'.mac_limit_profile_tbl = s.mac_limit_profile_tbl ∧ s'.profiles = s.profiles := by
  have hmain := set_intf_cfg_SET_inv dp_ifnet_byifname A fuel s es att ifname ifp vlan pname P
    hinv hfuel hif hP hA1 hA2
  have huniq' : ∀ (s' : State) (es' : List Nat) (att' : Nat → List Nat) (e : Nat),
      AttachInv s' es' att' → e ∈ es' → s'.entries e = ⟨ifp, vlan % 65536, some P⟩ →
      ∀ e' ∈ es', (s'.entries e').mle_ifp = ifp ∧ (s'.entries e').mle_vlan = vlan % 65536 →
        e' = e := by
    intro s' es' att' e hinv' he hent e' he' hk
    apply hinv'.2.2.2.2.1 e' he' e he
    · rw [hk.1, hent]
    · rw [hk.2, hent]
  rcases hcase with hno | ⟨e, he, hk, hne⟩
  · obtain ⟨s', hres, hinv', hent, hoth, htbl, hprofs⟩ := hmain.1 hno
    have hfresh : s.nentries ∉ es := fun h => absurd (hinv.2.2.2.1 _ h) (lt_irrefl _)
    refine ⟨s', s.nentries, es ++ [s.nentries],
      (fun p => if p = P then s.nentries :: att p else att p), hres, hinv', by simp,
      huniq' s' _ _ _ hinv' (by simp) hent, hent, by simp, ?_, ?_, htbl, hprofs⟩
    · intro q hq hqP hin
      simp only [hqP, if_false] at hin
      rw [htbl] at hq
      exact hfresh (hinv.2.2.2.2.2.2.1 q hq _ hin).1
    · intro e' hne'
      refine ⟨hoth e' hne', ?_, ?_⟩
      · simp [hne']
      · intro q
        by_cases hqP : q = P
        · simp [hqP, hne']
        · simp [hqP]
  · obtain ⟨Q, hQ, hQe, hQatt⟩ := hinv.2.2.2.2.2.2.2 e he
    have hQP : Q ≠ P := by
      intro h
      rw [h] at hQe
      exact hne hQe
    obtain ⟨s', hres, hinv', hent, hoth, htbl, hprofs⟩ := hmain.2 e he hk Q hQe hQP
    refine ⟨s', e, es, (fun p => if p = P then e :: att p else (att p).erase e), hres, hinv',
      he, huniq' s' _ _ _ hinv' he hent, hent, by simp, ?_, ?_, htbl, hprofs⟩
    · intro q hq hqP hin
      simp only [hqP, if_false] at hin
      rw [htbl] at hq
      have hnd : (att q).Nodup := List.Nodup.of_map _ (hinv.2.2.2.2.2.1 q hq).2.2.2
      exact List.Nodup.not_mem_erase hnd hin
    · intro e' hne'
      refine ⟨hoth e' hne', Iff.rfl, ?_⟩
      intro q
      by_cases hqP : q = P
      · simp [hqP, hne']
      · simp only [hqP, if_false]
        exact List.mem_erase_of_ne hne'

/-- The theorem `set_intf_cfg_SET_wellformed` in the example state: moving the
pair from `"q"` to `"p"` returns `0` and leaves a well-formed state. -/
theorem set_intf_cfg_SET_wellformed_witness :
    ∃ s' es' att', mac_limit_set_intf_cfg example_ifnet Alloc.ok 2 State.attached
        ⟨Action.SET, "dp0p1", 10, some "p"⟩ = some (0, s') ∧ AttachInv s' es' att' := by
  obtain ⟨s', _, es', att', h1, h2, _⟩ :=
    set_intf_cfg_SET_wellformed example_ifnet Alloc.ok 2 State.attached [0]
      (fun p => if p = 0 then [0] else []) "dp0p1" 100 10 "p" 1 attachInv_attached
      (by decide) (by decide) (by decide) rfl rfl (Or.inr ⟨0, by decide, by decide, by decide⟩)
  exact ⟨s', es', att', h1, h2⟩

/-- On a state that satisfies the invariant, a `DELETE` for a known interface
returns `0`.  When no entry carries the pair the state is as before.  When the
entry `e` carries the pair, the state afterwards satisfies the invariant with
`e` on neither the entry list nor the attachment list of any profile of the
table, `mle_find_entry` returns `NULL` for the pair, every other entry keeps
its fields, its place on the entry list and its attachment, and the profile
table and the profiles are as before.  The profile name of the request is not
looked at. -/
theorem set_intf_cfg_DELETE_wellformed (dp_ifnet_byifname : String → Option Nat) (A : Alloc)
    (fuel : Nat) (s : State) (es : List Nat) (att : Nat → List Nat)
    (ifname : String) (ifp vlan : Nat) (pname : Option String)
    (hinv : AttachInv s es att) (hfuel : es.length < fuel)
    (hif : dp_ifnet_byifname ifname = some ifp) :
    ∃ s' es' att',
      mac_limit_set_intf_cfg dp_ifnet_byifname A fuel s ⟨Action.DELETE, ifname, vlan, pname⟩
        = some (0, s') ∧
      AttachInv s' es' att' ∧
      mle_find_entry fuel s' ifp (vlan % 65536) = some none ∧
      ((∀ e ∈ es, ¬ ((s.entries e).mle_ifp = ifp ∧ (s.entries e).mle_vlan = vlan % 65536)) →
        s' = s) ∧
      (∀ e ∈ es, (s.entries e).mle_ifp = ifp ∧ (s.entries e).mle_vlan = vlan % 65536 →
        e ∉ es' ∧ (∀ q ∈ s.mac_limit_profile_tbl.getD [], e ∉ att' q) ∧
        e ∈ s'.rcu_free_entries ∧
        ∀ e', e' ≠ e → (e' ∈ es' ↔ e' ∈ es) ∧ ∀ q, (e' ∈ att' q ↔ e' ∈ att q)) ∧
      s'.entries = s.entries ∧
      s'.mac_limit_profile_tbl = s.mac_limit_profile_tbl ∧ s'.profiles = s.profiles := by
  have hmain := set_intf_cfg_DELETE_inv dp_ifnet_byifname A fuel s es att ifname ifp vlan pname
    hinv hfuel hif
  by_cases hex : ∃ e ∈ es, (s.entries e).mle_ifp = ifp ∧ (s.entries e).mle_vlan = vlan % 65536
  · obtain ⟨e, he, hk⟩ := hex
    obtain ⟨s', hres, hinv', hfind, hfree, htbl, hprofs, hents⟩ := hmain.2 e he hk
    refine ⟨s', es.erase e, (fun p => (att p).erase e), hres, hinv', hfind, ?_, ?_, hents,
      htbl, hprofs⟩
    · intro hno
      exact absurd hk (hno e he)
    · intro e1 he1 hk1
      have h1 : e1 = e := hinv.2.2.2.2.1 e1 he1 e he (hk1.1.trans hk.1.symm)
        (hk1.2.trans hk.2.symm)
      subst h1
      refine ⟨List.Nodup.not_mem_erase hinv.2.2.1, ?_, hfree, ?_⟩
      · intro q hq
        have hnd : (att q).Nodup := List.Nodup.of_map _ (hinv.2.2.2.2.2.1 q hq).2.2.2
        exact List.Nodup.not_mem_erase hnd
      · intro e' hne'
        exact ⟨List.mem_erase_of_ne hne', fun q => List.mem_erase_of_ne hne'⟩
  · have hno : ∀ e ∈ es, ¬ ((s.entries e).mle_ifp = ifp ∧
        (s.entries e).mle_vlan = vlan % 65536) := fun e he hk => hex ⟨e, he, hk⟩
    have hres := hmain.1 hno
    refine ⟨s, es, att, hres, hinv, ?_, fun _ => rfl, ?_, rfl, rfl, rfl⟩
    · rw [find_entry_of_list s es fuel ifp (vlan % 65536) hinv.2.1 hfuel]
      congr 1
      apply List.find?_eq_none.mpr
      intro e he
      simpa using hno e he
    · intro e he hk
      exact absurd hk (hno e he)

/-- The theorem `set_intf_cfg_DELETE_wellformed` in the example state: deleting
the pair returns `0` and `mle_find_entry` then returns `NULL`. -/
theorem set_intf_cfg_DELETE_wellformed_witness :
    ∃ s', mac_limit_set_intf_cfg example_ifnet Alloc.ok 2 State.attached
        ⟨Action.DELETE, "dp0p1", 10, some "x"⟩ = some (0, s') ∧
      mle_find_entry 2 s' 100 10 = some none := by
  obtain ⟨s', _, _, h1, _, h3, _⟩ :=
    set_intf_cfg_DELETE_wellformed example_ifnet Alloc.ok 2 State.attached [0]
      (fun p => if p = 0 then [0] else []) "dp0p1" 100 10 (some "x") attachInv_attached
      (by decide) (by decide)
  exact ⟨s', h1, h3⟩

/-- C6 on the requests `SET profile q 5`, `SET profile p 7`, `SET dp0p1 10 q`,
`SET dp0p1 10 q`, `SET dp0p1 10 p` from start-up: all five return `0`; the
entry of the pair (address 0) then has `mle_profile = p` (address 1) and is the
first node of the attachment list of `p`, but the attachment list of `q`
(address 0) is not empty and its first node is still the entry.  The repeated
`SET` to `q` linked the already linked node a second time, after which
`cds_list_del` no longer unlinks it. -/
theorem set_intf_cfg_SET_after_repeated_SET :
    (run_requests example_ifnet 4 State.init
      [ .profile ⟨.SET, some "q", 5⟩, .profile ⟨.SET, some "p", 7⟩,
        .ifvlan ⟨.SET, "dp0p1", 10, some "q"⟩,
        .ifvlan ⟨.SET, "dp0p1", 10, some "q"⟩,
        .ifvlan ⟨.SET, "dp0p1", 10, some "p"⟩ ]).map
      (fun r => (r.1, mac_limit_find_profile r.2 "q", mac_limit_find_profile r.2 "p",
        mle_find_entry 4 r.2 100 10, (r.2.entries 0).mle_profile,
        (r.2.heads (Node.mlp_list 1)).next,
        cds_list_empty r.2.heads (Node.mlp_list 0), (r.2.heads (Node.mlp_list 0)).next)) =
    some ([0, 0, 0, 0, 0], some 0, some 1, some (some 0), some 1,
      Node.mle_profile_list 0, false, Node.mle_profile_list 0) := by
  rfl

/-- C7 on the requests `SET profile p 5`, `SET dp0p1 10 p`, `SET dp0p1 10 p`,
`DELETE dp0p1 10 p` from start-up: all four return `0`; afterwards
`mle_find_entry` returns `NULL` for the pair and the entry (address 0) has been
handed to `call_rcu` for freeing, but the attachment list of `p` (address 0) is
not empty and its first node is still the entry.  The repeated `SET` linked
the already linked node a second time, after which `cds_list_del` no longer
unlinks it. -/
theorem set_intf_cfg_DELETE_after_repeated_SET :
    (run_requests example_ifnet 4 State.init
      [ .profile ⟨.SET, some "p", 5⟩,
        .ifvlan ⟨.SET, "dp0p1", 10, some "p"⟩,
        .ifvlan ⟨.SET, "dp0p1", 10, some "p"⟩,
        .ifvlan ⟨.DELETE, "dp0p1", 10, some "p"⟩ ]).map
      (fun r => (r.1, mac_limit_find_profile r.2 "p", mle_find_entry 4 r.2 100 10,
        r.2.rcu_free_entries,
        cds_list_empty r.2.heads (Node.mlp_list 0), (r.2.heads (Node.mlp_list 0)).next)) =
    some ([0, 0, 0, 0], some 0, some none, [0], false, Node.mle_profile_list 0) := by
  rfl

/-- The state after a repeated `SET` of a pair to the same profile: the entry's
`mle_profile_list` node is linked to itself, so no attachment list of the
invariant exists for the profile. -/
theorem repeated_SET_breaks_list :
    (run_requests example_ifnet 4 State.init
      [ .profile ⟨.SET, some "p", 5⟩,
        .ifvlan ⟨.SET, "dp0p1", 10, some "p"⟩,
        .ifvlan ⟨.SET, "dp0p1", 10, some "p"⟩ ]).map
      (fun r => (r.1, r.2.heads (Node.mlp_list 0), r.2.heads (Node.mle_profile_list 0))) =
    some ([0, 0, 0], ⟨Node.mle_profile_list 0, Node.mle_profile_list 0⟩,
      ⟨Node.mle_profile_list 0, Node.mle_profile_list 0⟩) := by
  rfl

/-- The theorem `attachInv_empty_iff` in the example state: the attachment list
of `"p"` (address 1) is empty. -/
theorem attachInv_empty_iff_witness :
    cds_list_empty State.attached.heads (Node.mlp_list 1) = true :=
  (attachInv_empty_iff State.attached [0] (fun p => if p = 0 then [0] else []) 1
    attachInv_attached (by decide)).mpr (by decide)

/-- On a state that satisfies the invariant, `mac_limit_set_profile` with action
`DELETE` on a profile of the table returns `0` and removes the profile exactly
when no entry of the entry list has it as its `mle_profile`; a profile that an
entry refers to stays in the table and is still found under its name.  No list
head and no entry is changed. -/
theorem set_profile_DELETE_wellformed (A : Alloc) (s : State) (es : List Nat)
    (att : Nat → List Nat) (name : String) (limit p : Nat)
    (hinv : AttachInv s es att) (hfind : mac_limit_find_profile s name = some p) :
    (mac_limit_set_profile A s ⟨Action.DELETE, some name, limit⟩).1 = 0 ∧
    (p ∉ (mac_limit_set_profile A s ⟨Action.DELETE, some name, limit⟩).2.mac_limit_profile_tbl.getD []
      ↔ ∀ e ∈ es, (s.entries e).mle_profile ≠ some p) ∧
    (mac_limit_find_profile (mac_limit_set_profile A s ⟨Action.DELETE, some name, limit⟩).2 name
      = none ↔ ∀ e ∈ es, (s.entries e).mle_profile ≠ some p) ∧
    ((∃ e ∈ es, (s.entries e).mle_profile = some p) →
      (mac_limit_set_profile A s ⟨Action.DELETE, some name, limit⟩).2.mac_limit_profile_tbl
        = s.mac_limit_profile_tbl ∧
      mac_limit_find_profile (mac_limit_set_profile A s ⟨Action.DELETE, some name, limit⟩).2 name
        = some p) ∧
    (mac_limit_set_profile A s ⟨Action.DELETE, some name, limit⟩).2.heads = s.heads ∧
    (mac_limit_set_profile A s ⟨Action.DELETE, some name, limit⟩).2.entries = s.entries := by
  have hp : p ∈ s.mac_limit_profile_tbl.getD [] := (find_profile_some s name p hfind).1
  have hiff := attachInv_empty_iff s es att p hinv hp
  obtain ⟨h0, h1, h2, _, h4, h5, h6⟩ :=
    set_profile_DELETE_by_list A s name limit p hinv.1 hfind
  refine ⟨h0, h1.trans hiff, h2.trans hiff, ?_, h5, h6⟩
  rintro ⟨e, he, hep⟩
  apply h4
  cases hc : cds_list_empty s.heads (Node.mlp_list p) with
  | false => rfl
  | true => exact absurd hep (hiff.mp hc e he)

/-- The theorem `set_profile_DELETE_wellformed` in the example state: the
profile `"q"`, which the entry of the pair refers to, stays in the table. -/
theorem set_profile_DELETE_wellformed_witness :
    mac_limit_find_profile
      (mac_limit_set_profile Alloc.ok State.attached ⟨Action.DELETE, some "q", 0⟩).2 "q"
      = some 0 :=
  ((set_profile_DELETE_wellformed Alloc.ok State.attached [0]
    (fun p => if p = 0 then [0] else []) "q" 0 0 attachInv_attached (by decide)).2.2.2.1
    ⟨0, by decide, by decide⟩).2

/-- C5 on the requests `SET profile p 5`, `SET dp0p1 10 p`, `SET dp0p1 20 p`,
`SET dp0p1 30 p`, `SET dp0p1 20 p`, `DELETE dp0p1 10 p`, `DELETE dp0p1 20 p`
from start-up, followed by `DELETE profile p`.  The seven requests return `0`;
in the state they leave, `mac_limit_find_profile` returns the profile `p`
(address 0), the entry for VLAN 30 (address 2) is found on the entry list and
its `mle_profile` is `p`, yet `cds_list_empty` holds of the `mlp_list` of `p`.
`DELETE profile p` then returns `0`, the profile is no longer found and has
been handed to `call_rcu` for freeing, while the entry for VLAN 30 is still on
the entry list with `mle_profile = p`.  The repeated `SET` of VLAN 20 linked
the already linked node a second time, which cut the entry for VLAN 30 out of
the attachment list. -/
theorem set_profile_DELETE_after_repeated_SET :
    (run_requests example_ifnet 5 State.init
      [ .profile ⟨.SET, some "p", 5⟩,
        .ifvlan ⟨.SET, "dp0p1", 10, some "p"⟩,
        .ifvlan ⟨.SET, "dp0p1", 20, some "p"⟩,
        .ifvlan ⟨.SET, "dp0p1", 30, some "p"⟩,
        .ifvlan ⟨.SET, "dp0p1", 20, some "p"⟩,
        .ifvlan ⟨.DELETE, "dp0p1", 10, some "p"⟩,
        .ifvlan ⟨.DELETE, "dp0p1", 20, some "p"⟩ ]).map
      (fun r => (r.1, mac_limit_find_profile r.2 "p", mle_find_entry 5 r.2 100 30,
        (r.2.entries 2).mle_profile, cds_list_empty r.2.heads (Node.mlp_list 0),
        (mac_limit_set_profile Alloc.ok r.2 ⟨.DELETE, some "p", 0⟩).1,
        mac_limit_find_profile
          (mac_limit_set_profile Alloc.ok r.2 ⟨.DELETE, some "p", 0⟩).2 "p",
        (mac_limit_set_profile Alloc.ok r.2 ⟨.DELETE, some "p", 0⟩).2.rcu_free_profiles,
        mle_find_entry 5 (mac_limit_set_profile Alloc.ok r.2 ⟨.DELETE, some "p", 0⟩).2 100 30,
        ((mac_limit_set_profile Alloc.ok r.2 ⟨.DELETE, some "p", 0⟩).2.entries 2).mle_profile)) =
    some ([0, 0, 0, 0, 0, 0, 0], some 0, some (some 2), some 0, true,
      0, none, [0], some (some 2), some 0) := by
  rfl

end MacLimit
